import Mathlib

/-! Region classification of proxy node names.

Shallow embedding of `internal/geoip/name_parser.go`: the rule table `regionRules`,
`RegionFromName`, `matchRule`, `containsCode` and `isASCIILetter`, together with the
parts of Go's `strings`, `unicode` and `unicode/utf8` packages they call.

A Go string is a sequence of bytes; `len`, indexing, slicing and `strings.Index` all
count bytes.  Run-time panics (slice or index out of range) are explicit results.
-/

namespace Geoip

/-- A Go `string`: its bytes, each a natural number below 256. -/
abbrev GoString := List Nat

/-- The bytes of a Go string literal: the UTF-8 encoding of the source text. -/
def utf8 (s : String) : GoString := s.toUTF8.data.toList.map UInt8.toNat

/-- Abnormal outcomes: the two Go run-time panics the code can raise, and exhaustion of
the iteration budget of a modelled loop. -/
inductive Panic
  | sliceBounds
  | indexRange
  | fuel
  deriving DecidableEq, Repr

/-! ## `unicode/utf8` -/

/-- Constant `utf8.RuneError` (U+FFFD). -/
def RuneError : Nat := 0xFFFD

/-- Constant `utf8.RuneSelf`: bytes below it are single-byte runes. -/
def RuneSelf : Nat := 0x80

/-- Constant `utf8.MaxRune`. -/
def MaxRune : Nat := 0x10FFFF

/-- The size field of the table `utf8.first` for a leading byte in 0xC2..0xF4: the
length in bytes of the encoding it starts. -/
def firstSize (s0 : Nat) : Nat := if s0 < 0xE0 then 2 else if s0 < 0xF0 then 3 else 4

/-- The lower end of the `utf8.acceptRanges` entry of a leading byte in 0xC2..0xF4: the
least second byte it accepts. -/
def acceptLo (s0 : Nat) : Nat := if s0 = 0xE0 then 0xA0 else if s0 = 0xF0 then 0x90 else 0x80

/-- The upper end of the `utf8.acceptRanges` entry of a leading byte in 0xC2..0xF4: the
greatest second byte it accepts. -/
def acceptHi (s0 : Nat) : Nat := if s0 = 0xED then 0x9F else if s0 = 0xF4 then 0x8F else 0xBF

/-- Function `utf8.DecodeRuneInString`: the first rune of `s` and its width in bytes.
An invalid or short encoding decodes to `(RuneError, 1)`, the empty string to
`(RuneError, 0)`.  Leading bytes 0x80..0xC1 and 0xF5..0xFF are the invalid entries of the
table `utf8.first`. -/
def DecodeRune (s : GoString) : Nat × Nat :=
  match s with
  | [] => (RuneError, 0)
  | s0 :: t =>
    if s0 < RuneSelf then (s0, 1)
    else if s0 < 0xC2 ∨ 0xF4 < s0 then (RuneError, 1)
    else if s.length < firstSize s0 then (RuneError, 1)
    else
      match t with
      | [] => (RuneError, 1)
      | s1 :: t1 =>
        if s1 < acceptLo s0 ∨ acceptHi s0 < s1 then (RuneError, 1)
        else if firstSize s0 ≤ 2 then (((s0 &&& 0x1F) <<< 6) ||| (s1 &&& 0x3F), 2)
        else
          match t1 with
          | [] => (RuneError, 1)
          | s2 :: t2 =>
            if s2 < 0x80 ∨ 0xBF < s2 then (RuneError, 1)
            else if firstSize s0 ≤ 3 then
              (((s0 &&& 0x0F) <<< 12) ||| ((s1 &&& 0x3F) <<< 6) ||| (s2 &&& 0x3F), 3)
            else
              match t2 with
              | [] => (RuneError, 1)
              | s3 :: _ =>
                if s3 < 0x80 ∨ 0xBF < s3 then (RuneError, 1)
                else
                  (((s0 &&& 0x07) <<< 18) ||| ((s1 &&& 0x3F) <<< 12)
                    ||| ((s2 &&& 0x3F) <<< 6) ||| (s3 &&& 0x3F), 4)

/-- Function `utf8.AppendRune` on an empty buffer: the UTF-8 encoding of rune `r`;
surrogates and values above `MaxRune` are encoded as `RuneError`. -/
def EncodeRune (r : Nat) : GoString :=
  if r ≤ 0x7F then [r]
  else if r ≤ 0x7FF then [0xC0 ||| (r >>> 6), 0x80 ||| (r &&& 0x3F)]
  else if MaxRune < r ∨ (0xD800 ≤ r ∧ r ≤ 0xDFFF) then [0xEF, 0xBF, 0xBD]
  else if r ≤ 0xFFFF then
    [0xE0 ||| (r >>> 12), 0x80 ||| ((r >>> 6) &&& 0x3F), 0x80 ||| (r &&& 0x3F)]
  else
    [0xF0 ||| (r >>> 18), 0x80 ||| ((r >>> 12) &&& 0x3F), 0x80 ||| ((r >>> 6) &&& 0x3F),
      0x80 ||| (r &&& 0x3F)]

/-! ## `unicode` -/

/-- The Unicode case-mapping data of the Go release (`unicode.CaseRanges`), taken as a
parameter: `upper r` is `unicode.To(UpperCase, r)` and `lower r` is
`unicode.To(LowerCase, r)`; they are consulted only for runes above `MaxASCII`. -/
structure CaseTables where
  upper : Nat → Nat
  lower : Nat → Nat

/-- A case table that maps every rune above `MaxASCII` to itself. -/
def CaseTables.trivial : CaseTables := ⟨id, id⟩

/-- An excerpt of Go's case tables, for examples: U+0131 (dotless i) has upper case
U+0049 "I", U+017F (long s) has upper case U+0053 "S", U+212A (Kelvin sign) has lower
case U+006B "k"; every other rune is left as it is, which is what the full tables do for
the uncased runes (CJK, flag emoji) of the examples. -/
def CaseTables.excerpt : CaseTables :=
  ⟨fun r => if r = 0x131 then 0x49 else if r = 0x17F then 0x53 else r,
   fun r => if r = 0x212A then 0x6B else r⟩

/-- Function `unicode.ToUpper`: ASCII is handled inline, other runes by the tables. -/
def unicodeToUpper (ct : CaseTables) (r : Nat) : Nat :=
  if r ≤ 0x7F then
    if 0x61 ≤ r ∧ r ≤ 0x7A then r - 0x20 else r
  else ct.upper r

/-- Function `unicode.ToLower`: ASCII is handled inline, other runes by the tables. -/
def unicodeToLower (ct : CaseTables) (r : Nat) : Nat :=
  if r ≤ 0x7F then
    if 0x41 ≤ r ∧ r ≤ 0x5A then r + 0x20 else r
  else ct.lower r

/-! ## `strings` -/

/-- The second loop of `strings.Map`, which runs from the first rune that changes to
the end of the string: decode the next rune (an invalid byte decodes to `RuneError` with
width 1) and write the encoding of its image.  The first argument bounds the number of
runes. -/
def mapLoop (mapping : Nat → Nat) : Nat → GoString → GoString
  | 0, _ => []
  | fuel + 1, s =>
    match s with
    | [] => []
    | _ :: _ =>
      let (c, width) := DecodeRune s
      EncodeRune (mapping c) ++ mapLoop mapping fuel (s.drop width)

/-- The first loop of `strings.Map`: a rune that the mapping leaves unchanged keeps its
bytes (`continue`), except the `RuneError` of an invalid byte (width 1); at the first
other rune the image is written and the second loop takes over.  The first argument
bounds the number of runes. -/
def mapScan (mapping : Nat → Nat) : Nat → GoString → GoString
  | 0, _ => []
  | fuel + 1, s =>
    match s with
    | [] => []
    | _ :: _ =>
      let (c, width) := DecodeRune s
      let r := mapping c
      if r = c ∧ (c ≠ RuneError ∨ width ≠ 1) then
        s.take width ++ mapScan mapping fuel (s.drop width)
      else EncodeRune r ++ mapLoop mapping fuel (s.drop width)

/-- Function `strings.Map` for a mapping that never returns a negative rune. -/
def Map (mapping : Nat → Nat) (s : GoString) : GoString :=
  mapScan mapping s.length s

/-- The byte step of the ASCII path of `strings.ToUpper`:
`if 'a' <= c && c <= 'z' { c -= 'a' - 'A' }`. -/
def upperByte (c : Nat) : Nat := if 0x61 ≤ c ∧ c ≤ 0x7A then c - 0x20 else c

/-- The byte step of the ASCII path of `strings.ToLower`:
`if 'A' <= c && c <= 'Z' { c += 'a' - 'A' }`. -/
def lowerByte (c : Nat) : Nat := if 0x41 ≤ c ∧ c ≤ 0x5A then c + 0x20 else c

/-- Function `strings.ToUpper`: an all-ASCII string is mapped byte by byte, any other
string goes through `Map(unicode.ToUpper, s)`. -/
def ToUpper (ct : CaseTables) (s : GoString) : GoString :=
  if s.all (fun c => decide (c < RuneSelf)) then s.map upperByte
  else Map (unicodeToUpper ct) s

/-- Function `strings.ToLower`: an all-ASCII string is mapped byte by byte, any other
string goes through `Map(unicode.ToLower, s)`. -/
def ToLower (ct : CaseTables) (s : GoString) : GoString :=
  if s.all (fun c => decide (c < RuneSelf)) then s.map lowerByte
  else Map (unicodeToLower ct) s

/-- Function `strings.Index`: the byte offset of the first occurrence of `substr` in
`s`; `none` stands for Go's `-1`. -/
def Index (s substr : GoString) : Option Nat :=
  if substr.isPrefixOf s then some 0
  else
    match s with
    | [] => none
    | _ :: t => (Index t substr).map (fun i => i + 1)

/-- Function `strings.Contains`, that is `Index(s, substr) >= 0`. -/
def Contains (s substr : GoString) : Bool := (Index s substr).isSome

/-- The slice expression `s[start:]`, which panics when `start > len(s)`. -/
def sliceFrom (s : GoString) (start : Nat) : Except Panic GoString :=
  if start ≤ s.length then .ok (s.drop start) else .error Panic.sliceBounds

/-- The index expression `s[i]`, which panics when `i >= len(s)`. -/
def byteAt (s : GoString) (i : Nat) : Except Panic Nat :=
  match s[i]? with
  | some b => .ok b
  | none => .error Panic.indexRange

/-! ## `name_parser.go` -/

/-- Modelled from the spec: the constants `RegionHK` ... `RegionOther` are declared in a
file of package `geoip` that is not among the sources; the spec describes them as a fixed
enumerated set of identifiers, one per supported region plus the sentinel. -/
inductive Region
  | HK | TW | JP | KR | US | SG | GB | DE | FR | NL | CA | AU | PH | IN | RU | TR | TH
  | OTHER
  deriving DecidableEq, Repr

abbrev RegionHK : Region := Region.HK
abbrev RegionTW : Region := Region.TW
abbrev RegionJP : Region := Region.JP
abbrev RegionKR : Region := Region.KR
abbrev RegionUS : Region := Region.US
abbrev RegionSG : Region := Region.SG
abbrev RegionGB : Region := Region.GB
abbrev RegionDE : Region := Region.DE
abbrev RegionFR : Region := Region.FR
abbrev RegionNL : Region := Region.NL
abbrev RegionCA : Region := Region.CA
abbrev RegionAU : Region := Region.AU
abbrev RegionPH : Region := Region.PH
abbrev RegionIN : Region := Region.IN
abbrev RegionRU : Region := Region.RU
abbrev RegionTR : Region := Region.TR
abbrev RegionTH : Region := Region.TH
abbrev RegionOther : Region := Region.OTHER

/-- Type `regionRule`: the keywords for matching one region. -/
structure regionRule where
  region : Region
  emojis : List GoString
  names : List GoString
  codes : List GoString

/-- The table `regionRules`, in declared order. -/
def regionRules : List regionRule := [
  { region := RegionHK,
    emojis := ["🇭🇰"].map utf8,
    names := ["香港", "hong kong", "hongkong"].map utf8,
    codes := ["HK"].map utf8 },
  { region := RegionTW,
    emojis := ["🇹🇼"].map utf8,
    names := ["台湾", "台北", "台中", "taiwan", "taipei"].map utf8,
    codes := ["TW"].map utf8 },
  { region := RegionJP,
    emojis := ["🇯🇵"].map utf8,
    names := ["日本", "东京", "大阪", "japan", "tokyo", "osaka"].map utf8,
    codes := ["JP"].map utf8 },
  { region := RegionKR,
    emojis := ["🇰🇷"].map utf8,
    names := ["韩国", "首尔", "korea", "seoul"].map utf8,
    codes := ["KR"].map utf8 },
  { region := RegionUS,
    emojis := ["🇺🇸"].map utf8,
    names := [
      "美国", "洛杉矶", "纽约", "旧金山", "西雅图", "芝加哥",
      "达拉斯", "圣何塞", "硅谷", "凤凰城",
      "united states", "america", "los angeles", "new york",
      "san francisco", "seattle", "chicago", "dallas",
      "silicon valley", "san jose", "phoenix"].map utf8,
    codes := ["US", "USA"].map utf8 },
  { region := RegionSG,
    emojis := ["🇸🇬"].map utf8,
    names := ["新加坡", "狮城", "singapore"].map utf8,
    codes := ["SG"].map utf8 },
  { region := RegionGB,
    emojis := ["🇬🇧"].map utf8,
    names := ["英国", "伦敦", "united kingdom", "britain", "england", "london"].map utf8,
    codes := ["UK", "GB"].map utf8 },
  { region := RegionDE,
    emojis := ["🇩🇪"].map utf8,
    names := ["德国", "法兰克福", "柏林", "germany", "frankfurt", "berlin"].map utf8,
    codes := ["DE"].map utf8 },
  { region := RegionFR,
    emojis := ["🇫🇷"].map utf8,
    names := ["法国", "巴黎", "france", "paris"].map utf8,
    codes := ["FR"].map utf8 },
  { region := RegionNL,
    emojis := ["🇳🇱"].map utf8,
    names := ["荷兰", "阿姆斯特丹", "netherlands", "holland", "amsterdam"].map utf8,
    codes := ["NL"].map utf8 },
  { region := RegionCA,
    emojis := ["🇨🇦"].map utf8,
    names := ["加拿大", "多伦多", "温哥华", "canada", "toronto", "vancouver"].map utf8,
    codes := ["CA"].map utf8 },
  { region := RegionAU,
    emojis := ["🇦🇺"].map utf8,
    names := ["澳大利亚", "澳洲", "悉尼", "墨尔本", "australia", "sydney",
      "melbourne"].map utf8,
    codes := ["AU"].map utf8 },
  { region := RegionPH,
    emojis := ["🇵🇭"].map utf8,
    names := ["菲律宾", "马尼拉", "philippines", "manila"].map utf8,
    codes := ["PH"].map utf8 },
  { region := RegionIN,
    emojis := ["🇮🇳"].map utf8,
    names := ["印度", "孟买", "india", "mumbai"].map utf8,
    codes := [] },
  { region := RegionRU,
    emojis := ["🇷🇺"].map utf8,
    names := ["俄罗斯", "莫斯科", "russia", "moscow"].map utf8,
    codes := ["RU"].map utf8 },
  { region := RegionTR,
    emojis := ["🇹🇷"].map utf8,
    names := ["土耳其", "伊斯坦布尔", "turkey", "istanbul"].map utf8,
    codes := ["TR"].map utf8 },
  { region := RegionTH,
    emojis := ["🇹🇭"].map utf8,
    names := ["泰国", "曼谷", "thailand", "bangkok"].map utf8,
    codes := ["TH"].map utf8 }]

/-- Function `isASCIILetter`. -/
def isASCIILetter (b : Nat) : Bool :=
  (decide (0x41 ≤ b) && decide (b ≤ 0x5A)) || (decide (0x61 ≤ b) && decide (b ≤ 0x7A))

/-- The `for` loop of `containsCode`, with `start` as loop state.  The first argument
bounds the number of iterations. -/
def containsCodeLoop (nameUpper codeUpper : GoString) : Nat → Nat → Except Panic Bool
  | 0, _ => .error Panic.fuel
  | fuel + 1, start => do
    let rest ← sliceFrom nameUpper start
    match Index rest codeUpper with
    | none => pure false
    | some i =>
      let idx := i + start
      let beforeOK ←
        if idx = 0 then pure true
        else do
          let b ← byteAt nameUpper (idx - 1)
          pure (!isASCIILetter b)
      let afterIdx := idx + codeUpper.length
      let afterOK ←
        if afterIdx ≥ nameUpper.length then pure true
        else do
          let b ← byteAt nameUpper afterIdx
          pure (!isASCIILetter b)
      if beforeOK && afterOK then pure true
      else containsCodeLoop nameUpper codeUpper fuel (idx + 1)

/-- Function `containsCode`.  Every iteration that does not return raises `start`, and
`start` above `len(nameUpper)` panics, so `len(nameUpper) + 2` iterations are enough. -/
def containsCode (ct : CaseTables) (name code : GoString) : Except Panic Bool :=
  let nameUpper := ToUpper ct name
  let codeUpper := ToUpper ct code
  containsCodeLoop nameUpper codeUpper (nameUpper.length + 2) 0

/-- The third loop of `matchRule`: the codes, in order, until one is contained. -/
def matchCodes (ct : CaseTables) (name : GoString) : List GoString → Except Panic Bool
  | [] => pure false
  | code :: rest => do
    if (← containsCode ct name code) then pure true
    else matchCodes ct name rest

/-- Function `matchRule`: emojis against the original name, keywords against the
lowered name, codes through `containsCode`. -/
def matchRule (ct : CaseTables) (name nameLower : GoString) (rule : regionRule) :
    Except Panic Bool :=
  if rule.emojis.any (fun emoji => Contains name emoji) then pure true
  else if rule.names.any (fun kw => Contains nameLower kw) then pure true
  else matchCodes ct name rule.codes

/-- The loop of `RegionFromName` over the rules, in order. -/
def regionLoop (ct : CaseTables) (name nameLower : GoString) :
    List regionRule → Except Panic Region
  | [] => pure RegionOther
  | rule :: rest => do
    if (← matchRule ct name nameLower rule) then pure rule.region
    else regionLoop ct name nameLower rest

/-- Function `RegionFromName`. -/
def RegionFromName (ct : CaseTables) (name : GoString) : Except Panic Region :=
  if name = [] then pure RegionOther
  else
    let nameLower := ToLower ct name
    regionLoop ct name nameLower regionRules

/-- One iteration of the `for` loop of `containsCode` from the search offset `start`:
either the loop returns a boolean (`Sum.inl`), or it goes on with a new `start`
(`Sum.inr`). -/
def scanStep (nameUpper codeUpper : GoString) (start : Nat) : Except Panic (Bool ⊕ Nat) := do
  let rest ← sliceFrom nameUpper start
  match Index rest codeUpper with
  | none => pure (Sum.inl false)
  | some i =>
    let idx := i + start
    let beforeOK ←
      if idx = 0 then pure true
      else do
        let b ← byteAt nameUpper (idx - 1)
        pure (!isASCIILetter b)
    let afterIdx := idx + codeUpper.length
    let afterOK ←
      if afterIdx ≥ nameUpper.length then pure true
      else do
        let b ← byteAt nameUpper afterIdx
        pure (!isASCIILetter b)
    if beforeOK && afterOK then pure (Sum.inl true)
    else pure (Sum.inr (idx + 1))

/-! ## Specification vocabulary -/

/-- Word occurrence: `sub` occurs in `s` at byte offset `idx`, the byte before the
occurrence (if any) is not an ASCII letter, and the byte after it (if any) is not an
ASCII letter. -/
def wordAt (s sub : GoString) (idx : Nat) : Prop :=
  sub <+: s.drop idx ∧
  (idx = 0 ∨ ∃ b, s[idx - 1]? = some b ∧ isASCIILetter b = false) ∧
  (idx + sub.length = s.length ∨ ∃ b, s[idx + sub.length]? = some b ∧ isASCIILetter b = false)

deriving instance DecidableEq for Except

/-- Two bytes are the same up to ASCII letter case: equal, or the same ASCII letter in
the two cases. -/
def caseEq (x y : Nat) : Bool :=
  x == y || (isASCIILetter x && isASCIILetter y && (x + 0x20 == y || y + 0x20 == x))

/-- Two strings of equal length that differ only in the case of ASCII letters. -/
def caseVariant : GoString → GoString → Bool
  | [], [] => true
  | x :: xs, y :: ys => caseEq x y && caseVariant xs ys
  | _, _ => false

/-- The maximal runs of ASCII letters of `s` from its first byte on, where `prevLetter`
tells whether the byte before `s` is an ASCII letter: a run starts at a letter that is
not preceded by a letter and extends over all the letters that follow it. -/
def letterRunsFrom (prevLetter : Bool) : GoString → List GoString
  | [] => []
  | b :: t =>
    if isASCIILetter b then
      if prevLetter then letterRunsFrom true t
      else (b :: t).takeWhile isASCIILetter :: letterRunsFrom true t
    else letterRunsFrom false t

/-- The maximal runs of ASCII letters of a string, from left to right. -/
def letterRuns (s : GoString) : List GoString := letterRunsFrom false s

/-- Auxiliary to the proofs about `letterRunsFrom`: `wordAt` for a string whose
predecessor byte is a letter or not according to `prevLetter`. -/
def runAt (prevLetter : Bool) (s r : GoString) (idx : Nat) : Prop :=
  r <+: s.drop idx ∧
  ((idx = 0 ∧ prevLetter = false) ∨
    (idx ≠ 0 ∧ ∃ b, s[idx - 1]? = some b ∧ isASCIILetter b = false)) ∧
  (idx + r.length = s.length ∨ ∃ b, s[idx + r.length]? = some b ∧ isASCIILetter b = false)

/-- The variant of the scan loop of `containsCode` that, after a candidate at `idx` fails
its boundary check, resumes at `idx + len(codeUpper)` instead of `idx + 1`; everything
else is as in `containsCodeLoop`. -/
def containsCodeLoopSkip (nameUpper codeUpper : GoString) : Nat → Nat → Except Panic Bool
  | 0, _ => .error Panic.fuel
  | fuel + 1, start => do
    let rest ← sliceFrom nameUpper start
    match Index rest codeUpper with
    | none => pure false
    | some i =>
      let idx := i + start
      let beforeOK ←
        if idx = 0 then pure true
        else do
          let b ← byteAt nameUpper (idx - 1)
          pure (!isASCIILetter b)
      let afterIdx := idx + codeUpper.length
      let afterOK ←
        if afterIdx ≥ nameUpper.length then pure true
        else do
          let b ← byteAt nameUpper afterIdx
          pure (!isASCIILetter b)
      if beforeOK && afterOK then pure true
      else containsCodeLoopSkip nameUpper codeUpper fuel (idx + codeUpper.length)

/-- The variant of `containsCode` that runs `containsCodeLoopSkip`. -/
def containsCodeSkip (ct : CaseTables) (name code : GoString) : Except Panic Bool :=
  let nameUpper := ToUpper ct name
  let codeUpper := ToUpper ct code
  containsCodeLoopSkip nameUpper codeUpper (nameUpper.length + 2) 0

/-- The boundary scan of `containsCode` run on the name with ASCII-only case
normalization: only the bytes "a".."z" are mapped to "A".."Z", every other byte is left
unchanged. -/
def containsCodeASCII (name code : GoString) : Except Panic Bool :=
  let nameUpper := name.map upperByte
  let codeUpper := code.map upperByte
  containsCodeLoop nameUpper codeUpper (nameUpper.length + 2) 0

/-- The runes of the rule table outside ASCII: the CJK unified ideographs U+4E00..U+9FFF
and the regional indicator symbols U+1F1E6..U+1F1FF (the halves of flag emoji).  Unicode
gives none of them a case mapping. -/
def uncasedRune (r : Nat) : Bool :=
  (decide (0x4E00 ≤ r) && decide (r ≤ 0x9FFF)) || (decide (0x1F1E6 ≤ r) && decide (r ≤ 0x1F1FF))

/-- A case table that, like Go's, leaves the uncased runes of `uncasedRune` unchanged. -/
def CaseTables.fixesUncased (ct : CaseTables) : Prop :=
  ∀ r, uncasedRune r = true → ct.upper r = r ∧ ct.lower r = r

/-- Whether `s` consists of ASCII bytes and well-formed encodings of uncased runes.  The
first argument bounds the number of runes. -/
def plainText : Nat → GoString → Bool
  | 0, s => s.isEmpty
  | _ + 1, [] => true
  | fuel + 1, b :: t =>
    if b < RuneSelf then plainText fuel t
    else
      uncasedRune (DecodeRune (b :: t)).1 &&
        ((b :: t).take (DecodeRune (b :: t)).2).all (fun x => decide (RuneSelf ≤ x)) &&
        plainText fuel ((b :: t).drop (DecodeRune (b :: t)).2)

/-! ## `strings.Index` and `strings.Contains` -/

theorem Index_nil_left (sub : GoString) :
    Index [] sub = if sub.isPrefixOf [] then some 0 else none := by
  unfold Index; rfl

theorem Index_cons (b : Nat) (t sub : GoString) :
    Index (b :: t) sub =
      if sub.isPrefixOf (b :: t) then some 0 else (Index t sub).map (fun i => i + 1) := by
  conv => lhs; unfold Index

theorem Index_eq_none (s sub : GoString) :
    Index s sub = none ↔ ∀ j, ¬ sub <+: s.drop j := by
  induction s with
  | nil =>
    rw [Index_nil_left]
    constructor
    · intro h j hp
      have h0 : sub.isPrefixOf [] = true := by
        rw [List.isPrefixOf_iff_prefix]; simpa using hp
      simp [h0] at h
    · intro h
      have h0 : ¬ sub.isPrefixOf [] = true := by
        rw [List.isPrefixOf_iff_prefix]; simpa using h 0
      simp [h0]
  | cons b t ih =>
    rw [Index_cons]
    by_cases hp : sub.isPrefixOf (b :: t) = true
    · simp only [hp, if_true]
      constructor
      · intro h; cases h
      · intro h
        exact absurd (List.isPrefixOf_iff_prefix.mp hp) (by simpa using h 0)
    · simp only [hp, if_false, Option.map_eq_none', Bool.false_eq_true]
      rw [ih]
      constructor
      · intro h j
        cases j with
        | zero => simpa [List.isPrefixOf_iff_prefix] using hp
        | succ j => simpa using h j
      · intro h j
        simpa using h (j + 1)

theorem Index_eq_some (s sub : GoString) (i : Nat) :
    Index s sub = some i ↔ sub <+: s.drop i ∧ ∀ j, j < i → ¬ sub <+: s.drop j := by
  induction s generalizing i with
  | nil =>
    rw [Index_nil_left]
    by_cases hp : sub.isPrefixOf [] = true
    · have hp2 := List.isPrefixOf_iff_prefix.mp hp
      simp only [hp, if_true, Option.some.injEq]
      constructor
      · intro h; subst h
        exact ⟨by simpa using hp2, fun j hj => absurd hj (Nat.not_lt_zero j)⟩
      · intro h
        rcases Nat.eq_zero_or_pos i with h0 | h0
        · exact h0.symm
        · exact absurd (by simpa using hp2) (h.2 0 h0)
    · have hp2 : ¬ sub <+: [] := fun h => hp (List.isPrefixOf_iff_prefix.mpr h)
      simp only [hp, if_false, Bool.false_eq_true]
      constructor
      · intro h; cases h
      · intro h; exact absurd (by simpa using h.1) hp2
  | cons b t ih =>
    rw [Index_cons]
    by_cases hp : sub.isPrefixOf (b :: t) = true
    · have hp2 := List.isPrefixOf_iff_prefix.mp hp
      simp only [hp, if_true, Option.some.injEq]
      constructor
      · intro h; subst h
        exact ⟨by simpa using hp2, fun j hj => absurd hj (Nat.not_lt_zero j)⟩
      · intro h
        rcases Nat.eq_zero_or_pos i with h0 | h0
        · exact h0.symm
        · exact absurd (by simpa using hp2) (h.2 0 h0)
    · have hp2 : ¬ sub <+: b :: t := fun h => hp (List.isPrefixOf_iff_prefix.mpr h)
      simp only [hp, if_false, Bool.false_eq_true, Option.map_eq_some']
      constructor
      · rintro ⟨k, hk, rfl⟩
        rcases (ih k).mp hk with ⟨h1, h2⟩
        refine ⟨by simpa using h1, ?_⟩
        intro j hj
        cases j with
        | zero => simpa using hp2
        | succ j => simpa using h2 j (by omega)
      · rintro ⟨h1, h2⟩
        cases i with
        | zero => exact absurd (by simpa using h1) hp2
        | succ k =>
          refine ⟨k, (ih k).mpr ⟨by simpa using h1, ?_⟩, rfl⟩
          intro j hj
          simpa using h2 (j + 1) (by omega)

theorem Contains_iff_infix (s sub : GoString) : Contains s sub = true ↔ sub <:+: s := by
  unfold Contains
  constructor
  · intro h
    rcases Option.isSome_iff_exists.mp h with ⟨i, hi⟩
    have hp := ((Index_eq_some s sub i).mp hi).1
    exact hp.isInfix.trans (List.drop_suffix i s).isInfix
  · rintro ⟨a, c, rfl⟩
    cases h : Index (a ++ sub ++ c) sub with
    | some i => rfl
    | none =>
      exfalso
      refine (Index_eq_none _ _).mp h a.length ?_
      rw [List.append_assoc, List.drop_left]
      exact List.prefix_append sub c

/-! ## The scan loop of `containsCode` -/

theorem byteAt_of_lt {s : GoString} {i : Nat} (h : i < s.length) :
    byteAt s i = .ok s[i] := by
  simp [byteAt, List.getElem?_eq_getElem h]

theorem getD_of_lt {s : GoString} {i : Nat} (h : i < s.length) : s.getD i 0 = s[i] := by
  rw [List.getD_eq_getElem?_getD, List.getElem?_eq_getElem h]
  rfl

theorem wordAt_iff_check {U C : GoString} {idx : Nat} (hp : C <+: U.drop idx)
    (hidx : idx ≤ U.length) :
    wordAt U C idx ↔
      ((decide (idx = 0) || !isASCIILetter (U.getD (idx - 1) 0)) &&
        (decide (idx + C.length ≥ U.length) ||
          !isASCIILetter (U.getD (idx + C.length) 0))) = true := by
  have hlen : C.length ≤ U.length - idx := by
    have h := hp.length_le
    simpa only [List.length_drop] using h
  have hB : (idx = 0 ∨ ∃ b, U[idx - 1]? = some b ∧ isASCIILetter b = false) ↔
      (decide (idx = 0) || !isASCIILetter (U.getD (idx - 1) 0)) = true := by
    by_cases h0 : idx = 0
    · simp [h0]
    · by_cases hlt : idx - 1 < U.length
      · simp [h0, getD_of_lt hlt, List.getElem?_eq_getElem hlt]
      · omega
  have hA : (idx + C.length = U.length ∨
        ∃ b, U[idx + C.length]? = some b ∧ isASCIILetter b = false) ↔
      (decide (idx + C.length ≥ U.length) ||
        !isASCIILetter (U.getD (idx + C.length) 0)) = true := by
    by_cases hlt : idx + C.length < U.length
    · have hne : idx + C.length ≠ U.length := by omega
      have hnge : ¬ idx + C.length ≥ U.length := by omega
      simp [hne, hnge, getD_of_lt hlt, List.getElem?_eq_getElem hlt]
    · have he : idx + C.length = U.length := by omega
      have hge : idx + C.length ≥ U.length := by omega
      simp [he]
  unfold wordAt
  rw [hB, hA, Bool.and_eq_true]
  exact ⟨fun h => h.2, fun h => ⟨hp, h⟩⟩

theorem containsCodeLoop_spec (U C : GoString) (hC : C ≠ []) :
    ∀ (fuel start : Nat), start ≤ U.length → U.length + 2 ≤ fuel + start →
      ∃ b, containsCodeLoop U C fuel start = .ok b ∧
        (b = true ↔ ∃ idx, start ≤ idx ∧ wordAt U C idx) := by
  intro fuel
  induction fuel with
  | zero => intro start h1 h2; omega
  | succ n ih =>
    intro start h1 h2
    have hs : sliceFrom U start = .ok (U.drop start) := by simp [sliceFrom, h1]
    cases hI : Index (U.drop start) C with
    | none =>
      refine ⟨false, ?_, ?_⟩
      · simp [containsCodeLoop, hs, hI, bind, Except.bind, pure, Except.pure]
      · simp only [Bool.false_eq_true, false_iff, not_exists, not_and]
        intro idx hle hw
        have h := (Index_eq_none _ _).mp hI (idx - start)
        rw [List.drop_drop] at h
        have e : start + (idx - start) = idx := by omega
        rw [e] at h
        exact h hw.1
    | some i =>
      obtain ⟨hp, hmin⟩ := (Index_eq_some _ _ _).mp hI
      rw [List.drop_drop] at hp
      have hCpos : 0 < C.length := List.length_pos.mpr hC
      have hlen : start + i + C.length ≤ U.length := by
        have h := hp.length_le
        simp only [List.length_drop] at h
        omega
      have hunf : containsCodeLoop U C (n + 1) start =
          (if ((decide (i + start = 0) || !isASCIILetter (U.getD (i + start - 1) 0)) &&
              (decide (i + start + C.length ≥ U.length) ||
                !isASCIILetter (U.getD (i + start + C.length) 0))) = true
            then .ok true else containsCodeLoop U C n (i + start + 1)) := by
        rw [containsCodeLoop]
        simp only [hs, hI, bind, Except.bind, pure, Except.pure]
        obtain ⟨idx, hidx⟩ : ∃ idx, idx = i + start := ⟨_, rfl⟩
        rw [← hidx]
        have hB : idx ≠ 0 → byteAt U (idx - 1) = .ok (U.getD (idx - 1) 0) := by
          intro h
          have hlt : idx - 1 < U.length := by omega
          rw [byteAt_of_lt hlt, List.getD_eq_getElem?_getD, List.getElem?_eq_getElem hlt]
          rfl
        have hA : ¬ idx + C.length ≥ U.length →
            byteAt U (idx + C.length) = .ok (U.getD (idx + C.length) 0) := by
          intro h
          have hlt : idx + C.length < U.length := by omega
          rw [byteAt_of_lt hlt, List.getD_eq_getElem?_getD, List.getElem?_eq_getElem hlt]
          rfl
        by_cases h0 : idx = 0 <;> by_cases h1 : idx + C.length ≥ U.length
        · rw [if_pos h0, if_pos h1, decide_eq_true h0, decide_eq_true h1]
          simp
        · rw [if_pos h0, if_neg h1, hA h1, decide_eq_true h0, decide_eq_false h1]
          simp
        · rw [if_neg h0, hB h0, decide_eq_false h0, decide_eq_true h1]
          simp only [if_pos h1]
          simp
        · rw [if_neg h0, hB h0, decide_eq_false h0, decide_eq_false h1]
          simp only [if_neg h1, hA h1]
          simp
      have hp' : C <+: U.drop (i + start) := by rwa [Nat.add_comm]
      have hchk := wordAt_iff_check hp' (by omega)
      by_cases hW : ((decide (i + start = 0) || !isASCIILetter (U.getD (i + start - 1) 0)) &&
              (decide (i + start + C.length ≥ U.length) ||
                !isASCIILetter (U.getD (i + start + C.length) 0))) = true
      · refine ⟨true, ?_, ?_⟩
        · rw [hunf, if_pos hW]
        · simp only [true_iff]
          exact ⟨i + start, by omega, hchk.mpr hW⟩
      · obtain ⟨b, hb, hiff⟩ := ih (i + start + 1) (by omega) (by omega)
        refine ⟨b, ?_, ?_⟩
        · rw [hunf, if_neg hW]; exact hb
        · rw [hiff]
          constructor
          · rintro ⟨idx, hle, hw⟩
            exact ⟨idx, by omega, hw⟩
          · rintro ⟨idx, hle, hw⟩
            refine ⟨idx, ?_, hw⟩
            by_contra hcon
            have hlt : idx < i + start + 1 := by omega
            rcases Nat.lt_or_ge (idx - start) i with hlt2 | hge2
            · have h := hmin (idx - start) hlt2
              rw [List.drop_drop] at h
              have e : start + (idx - start) = idx := by omega
              rw [e] at h
              exact h hw.1
            · have e : idx = i + start := by omega
              rw [e] at hw
              exact hW (hchk.mp hw)

/-! ## Totality of the case conversions and of the matchers -/

theorem EncodeRune_ne_nil (r : Nat) : EncodeRune r ≠ [] := by
  unfold EncodeRune
  split_ifs <;> simp

/-! ### Bit operations of the UTF-8 codec as arithmetic -/

theorem or_eq_add_of_low (i m a b : Nat) (hm : m = 2 ^ i) (ha : a % m = 0) (hb : b < m) :
    a ||| b = a + b := by
  subst hm
  have h := Nat.mul_add_lt_is_or hb (a / 2 ^ i)
  have e : 2 ^ i * (a / 2 ^ i) = a := by
    have := Nat.div_add_mod a (2 ^ i)
    omega
  rw [e] at h
  exact h.symm

theorem and_1F (x : Nat) : x &&& 0x1F = x % 32 := Nat.and_pow_two_sub_one_eq_mod x 5

theorem and_3F (x : Nat) : x &&& 0x3F = x % 64 := Nat.and_pow_two_sub_one_eq_mod x 6

theorem and_0F (x : Nat) : x &&& 0x0F = x % 16 := Nat.and_pow_two_sub_one_eq_mod x 4

theorem and_07 (x : Nat) : x &&& 0x07 = x % 8 := Nat.and_pow_two_sub_one_eq_mod x 3

theorem shl_6 (x : Nat) : x <<< 6 = x * 64 := Nat.shiftLeft_eq x 6

theorem shl_12 (x : Nat) : x <<< 12 = x * 4096 := Nat.shiftLeft_eq x 12

theorem shl_18 (x : Nat) : x <<< 18 = x * 262144 := Nat.shiftLeft_eq x 18

theorem shr_6 (x : Nat) : x >>> 6 = x / 64 := Nat.shiftRight_eq_div_pow x 6

theorem shr_12 (x : Nat) : x >>> 12 = x / 4096 := Nat.shiftRight_eq_div_pow x 12

theorem shr_18 (x : Nat) : x >>> 18 = x / 262144 := Nat.shiftRight_eq_div_pow x 18

theorem EncodeRune_two (s0 s1 : Nat) (h0 : 0xC2 ≤ s0) (h0' : s0 < 0xE0) (h1 : 0x80 ≤ s1)
    (h1' : s1 ≤ 0xBF) : EncodeRune (((s0 &&& 0x1F) <<< 6) ||| (s1 &&& 0x3F)) = [s0, s1] := by
  obtain ⟨r, hr⟩ : ∃ r, r = 64 * (s0 - 192) + (s1 - 128) := ⟨_, rfl⟩
  have e : ((s0 &&& 0x1F) <<< 6) ||| (s1 &&& 0x3F) = r := by
    rw [and_1F, and_3F, shl_6, or_eq_add_of_low 6 64 (s0 % 32 * 64) (s1 % 64) rfl
      (by omega) (by omega)]
    omega
  have c1 : ¬ r ≤ 0x7F := by omega
  have c2 : r ≤ 0x7FF := by omega
  have b0 : 0xC0 ||| (r >>> 6) = s0 := by
    rw [shr_6, or_eq_add_of_low 6 64 0xC0 (r / 64) rfl (by omega) (by omega)]
    omega
  have b1 : 0x80 ||| (r &&& 0x3F) = s1 := by
    rw [and_3F, or_eq_add_of_low 7 128 0x80 (r % 64) rfl (by omega) (by omega)]
    omega
  rw [e]
  unfold EncodeRune
  rw [if_neg c1, if_pos c2, b0, b1]

theorem EncodeRune_three (s0 s1 s2 : Nat) (h0 : 0xE0 ≤ s0) (h0' : s0 < 0xF0)
    (h1 : acceptLo s0 ≤ s1) (h1' : s1 ≤ acceptHi s0) (h2 : 0x80 ≤ s2) (h2' : s2 ≤ 0xBF) :
    EncodeRune (((s0 &&& 0x0F) <<< 12) ||| ((s1 &&& 0x3F) <<< 6) ||| (s2 &&& 0x3F)) =
      [s0, s1, s2] := by
  have hlo : 0x80 ≤ s1 ∧ (s0 = 0xE0 → 0xA0 ≤ s1) := by
    unfold acceptLo at h1
    split_ifs at h1 <;> omega
  have hhi : s1 ≤ 0xBF ∧ (s0 = 0xED → s1 ≤ 0x9F) := by
    unfold acceptHi at h1'
    split_ifs at h1' <;> omega
  clear h1 h1'
  obtain ⟨r, hr⟩ : ∃ r, r = 4096 * (s0 - 224) + 64 * (s1 - 128) + (s2 - 128) := ⟨_, rfl⟩
  have e : ((s0 &&& 0x0F) <<< 12) ||| ((s1 &&& 0x3F) <<< 6) ||| (s2 &&& 0x3F) = r := by
    rw [and_0F, and_3F, and_3F, shl_6, shl_12,
      or_eq_add_of_low 12 4096 (s0 % 16 * 4096) (s1 % 64 * 64) rfl (by omega) (by omega),
      or_eq_add_of_low 6 64 (s0 % 16 * 4096 + s1 % 64 * 64) (s2 % 64) rfl
        (by omega) (by omega)]
    omega
  have c1 : ¬ r ≤ 0x7F := by omega
  have c2 : ¬ r ≤ 0x7FF := by omega
  have c3 : ¬ (MaxRune < r ∨ (0xD800 ≤ r ∧ r ≤ 0xDFFF)) := by unfold MaxRune; omega
  have c4 : r ≤ 0xFFFF := by omega
  have b0 : 0xE0 ||| (r >>> 12) = s0 := by
    rw [shr_12, or_eq_add_of_low 5 32 0xE0 (r / 4096) rfl (by omega) (by omega)]
    omega
  have b1 : 0x80 ||| ((r >>> 6) &&& 0x3F) = s1 := by
    rw [shr_6, and_3F, or_eq_add_of_low 7 128 0x80 (r / 64 % 64) rfl (by omega) (by omega)]
    omega
  have b2 : 0x80 ||| (r &&& 0x3F) = s2 := by
    rw [and_3F, or_eq_add_of_low 7 128 0x80 (r % 64) rfl (by omega) (by omega)]
    omega
  rw [e]
  unfold EncodeRune
  rw [if_neg c1, if_neg c2, if_neg c3, if_pos c4, b0, b1, b2]

theorem EncodeRune_four (s0 s1 s2 s3 : Nat) (h0 : 0xF0 ≤ s0) (h0' : s0 ≤ 0xF4)
    (h1 : acceptLo s0 ≤ s1) (h1' : s1 ≤ acceptHi s0) (h2 : 0x80 ≤ s2) (h2' : s2 ≤ 0xBF)
    (h3 : 0x80 ≤ s3) (h3' : s3 ≤ 0xBF) :
    EncodeRune (((s0 &&& 0x07) <<< 18) ||| ((s1 &&& 0x3F) <<< 12)
        ||| ((s2 &&& 0x3F) <<< 6) ||| (s3 &&& 0x3F)) = [s0, s1, s2, s3] := by
  have hlo : 0x80 ≤ s1 ∧ (s0 = 0xF0 → 0x90 ≤ s1) := by
    unfold acceptLo at h1
    split_ifs at h1 <;> omega
  have hhi : s1 ≤ 0xBF ∧ (s0 = 0xF4 → s1 ≤ 0x8F) := by
    unfold acceptHi at h1'
    split_ifs at h1' <;> omega
  clear h1 h1'
  obtain ⟨r, hr⟩ : ∃ r, r =
      262144 * (s0 - 240) + 4096 * (s1 - 128) + 64 * (s2 - 128) + (s3 - 128) := ⟨_, rfl⟩
  have e : ((s0 &&& 0x07) <<< 18) ||| ((s1 &&& 0x3F) <<< 12)
        ||| ((s2 &&& 0x3F) <<< 6) ||| (s3 &&& 0x3F) = r := by
    rw [and_07, and_3F, and_3F, and_3F, shl_6, shl_12, shl_18,
      or_eq_add_of_low 18 262144 (s0 % 8 * 262144) (s1 % 64 * 4096) rfl (by omega) (by omega),
      or_eq_add_of_low 12 4096 (s0 % 8 * 262144 + s1 % 64 * 4096) (s2 % 64 * 64) rfl
        (by omega) (by omega),
      or_eq_add_of_low 6 64 (s0 % 8 * 262144 + s1 % 64 * 4096 + s2 % 64 * 64) (s3 % 64) rfl
        (by omega) (by omega)]
    omega
  have c1 : ¬ r ≤ 0x7F := by omega
  have c2 : ¬ r ≤ 0x7FF := by omega
  have c3 : ¬ (MaxRune < r ∨ (0xD800 ≤ r ∧ r ≤ 0xDFFF)) := by unfold MaxRune; omega
  have c4 : ¬ r ≤ 0xFFFF := by omega
  have b0 : 0xF0 ||| (r >>> 18) = s0 := by
    rw [shr_18, or_eq_add_of_low 4 16 0xF0 (r / 262144) rfl (by omega) (by omega)]
    omega
  have b1 : 0x80 ||| ((r >>> 12) &&& 0x3F) = s1 := by
    rw [shr_12, and_3F, or_eq_add_of_low 7 128 0x80 (r / 4096 % 64) rfl (by omega) (by omega)]
    omega
  have b2 : 0x80 ||| ((r >>> 6) &&& 0x3F) = s2 := by
    rw [shr_6, and_3F, or_eq_add_of_low 7 128 0x80 (r / 64 % 64) rfl (by omega) (by omega)]
    omega
  have b3 : 0x80 ||| (r &&& 0x3F) = s3 := by
    rw [and_3F, or_eq_add_of_low 7 128 0x80 (r % 64) rfl (by omega) (by omega)]
    omega
  rw [e]
  unfold EncodeRune
  rw [if_neg c1, if_neg c2, if_neg c3, if_neg c4, b0, b1, b2, b3]

theorem firstSize_le_two (b : Nat) : firstSize b ≤ 2 ↔ b < 0xE0 := by
  unfold firstSize
  split_ifs <;> omega

theorem firstSize_le_three (b : Nat) : firstSize b ≤ 3 ↔ b < 0xF0 := by
  unfold firstSize
  split_ifs <;> omega

theorem acceptLo_ge (s0 : Nat) : 0x80 ≤ acceptLo s0 := by
  unfold acceptLo
  split_ifs <;> omega

theorem acceptHi_le (s0 : Nat) : acceptHi s0 ≤ 0xBF := by
  unfold acceptHi
  split_ifs <;> omega

/-- Re-encoding a decoded rune gives back the bytes it was decoded from, unless the
decoder reported an invalid byte. -/
theorem EncodeRune_DecodeRune (b : Nat) (t : GoString) :
    DecodeRune (b :: t) = (RuneError, 1) ∨
      EncodeRune (DecodeRune (b :: t)).1 = (b :: t).take (DecodeRune (b :: t)).2 := by
  have hlo := acceptLo_ge b
  have hhi := acceptHi_le b
  by_cases hA : b < RuneSelf
  · right
    have e : DecodeRune (b :: t) = (b, 1) := by simp only [DecodeRune, hA, if_true]
    rw [e]
    unfold RuneSelf at hA
    have c : b ≤ 0x7F := by omega
    simp [EncodeRune, c]
  by_cases hI : b < 0xC2 ∨ 0xF4 < b
  · left
    simp only [DecodeRune, hA, hI, if_true, if_false]
  by_cases hL : (b :: t).length < firstSize b
  · left
    simp only [DecodeRune, hA, hI, hL, if_true, if_false]
  match t with
  | [] => left; simp only [DecodeRune, hA, hI, hL, if_true, if_false]
  | s1 :: t1 =>
    by_cases h1 : s1 < acceptLo b ∨ acceptHi b < s1
    · left
      simp only [DecodeRune, hA, hI, hL, h1, if_true, if_false]
    by_cases hS2 : firstSize b ≤ 2
    · right
      have e : DecodeRune (b :: s1 :: t1) = (((b &&& 0x1F) <<< 6) ||| (s1 &&& 0x3F), 2) := by
        simp only [DecodeRune, hA, hI, hL, h1, hS2, if_true, if_false]
      rw [e]
      have hb := (firstSize_le_two b).mp hS2
      simpa using EncodeRune_two b s1 (by omega) hb (by omega) (by omega)
    match t1 with
    | [] => left; simp only [DecodeRune, hA, hI, hL, h1, hS2, if_true, if_false]
    | s2 :: t2 =>
      by_cases h2 : s2 < 0x80 ∨ 0xBF < s2
      · left
        simp only [DecodeRune, hA, hI, hL, h1, hS2, h2, if_true, if_false]
      by_cases hS3 : firstSize b ≤ 3
      · right
        have e : DecodeRune (b :: s1 :: s2 :: t2) =
            (((b &&& 0x0F) <<< 12) ||| ((s1 &&& 0x3F) <<< 6) ||| (s2 &&& 0x3F), 3) := by
          simp only [DecodeRune, hA, hI, hL, h1, hS2, h2, hS3, if_true, if_false]
        rw [e]
        have hb := (firstSize_le_three b).mp hS3
        have hb2 : ¬ b < 0xE0 := fun h => hS2 ((firstSize_le_two b).mpr h)
        simpa using EncodeRune_three b s1 s2 (by omega) hb (by omega) (by omega)
          (by omega) (by omega)
      match t2 with
      | [] => left; simp only [DecodeRune, hA, hI, hL, h1, hS2, h2, hS3, if_true, if_false]
      | s3 :: t3 =>
        by_cases h3 : s3 < 0x80 ∨ 0xBF < s3
        · left
          simp only [DecodeRune, hA, hI, hL, h1, hS2, h2, hS3, h3, if_true, if_false]
        · right
          have e : DecodeRune (b :: s1 :: s2 :: s3 :: t3) =
              (((b &&& 0x07) <<< 18) ||| ((s1 &&& 0x3F) <<< 12)
                ||| ((s2 &&& 0x3F) <<< 6) ||| (s3 &&& 0x3F), 4) := by
            simp only [DecodeRune, hA, hI, hL, h1, hS2, h2, hS3, h3, if_true, if_false]
          rw [e]
          have hb3 : ¬ b < 0xF0 := fun h => hS3 ((firstSize_le_three b).mpr h)
          simpa using EncodeRune_four b s1 s2 s3 (by omega) (by omega) (by omega) (by omega)
            (by omega) (by omega) (by omega) (by omega)


theorem DecodeRune_width_pos (b : Nat) (t : GoString) : 1 ≤ (DecodeRune (b :: t)).2 := by
  match t with
  | [] => simp only [DecodeRune]; split_ifs <;> simp
  | [_] => simp only [DecodeRune]; split_ifs <;> simp
  | [_, _] => simp only [DecodeRune]; split_ifs <;> simp
  | _ :: _ :: _ :: _ => simp only [DecodeRune]; split_ifs <;> simp

/-- The rune budget of `Map` is never exhausted: every rune takes at least one byte, so
any budget of at least `len(s)` gives the same result. -/
theorem mapLoop_fuel (f : Nat → Nat) :
    ∀ (fuel : Nat) (s : GoString), s.length ≤ fuel →
      mapLoop f fuel s = mapLoop f s.length s := by
  intro fuel
  induction fuel using Nat.strong_induction_on with
  | _ fuel ih =>
    intro s hs
    match fuel, s, hs with
    | 0, [], _ => rfl
    | n + 1, [], _ => rfl
    | n + 1, b :: t, hs =>
      simp only [mapLoop, List.length_cons]
      have hw := DecodeRune_width_pos b t
      have hlen : ((b :: t).drop (DecodeRune (b :: t)).2).length ≤ t.length := by
        rw [List.length_drop, List.length_cons]; omega
      have hn : t.length ≤ n := by simpa using hs
      rw [ih n (Nat.lt_succ_self n) _ (by omega)]
      rcases Nat.lt_or_ge t.length n with hlt | hge
      · rw [ih t.length (by omega) _ hlen]
      · have e : t.length = n := by omega
        rw [e, ih n (Nat.lt_succ_self n) _ (by omega)]

theorem mapScan_eq_mapLoop (f : Nat → Nat) :
    ∀ (fuel : Nat) (s : GoString), s.length ≤ fuel → mapScan f fuel s = mapLoop f fuel s := by
  intro fuel
  induction fuel with
  | zero => intro s _; rfl
  | succ n ih =>
    intro s hs
    match s, hs with
    | [], _ => rfl
    | b :: t, hs =>
      have hw := DecodeRune_width_pos b t
      have hlen : ((b :: t).drop (DecodeRune (b :: t)).2).length ≤ n := by
        rw [List.length_drop]
        simp only [List.length_cons] at hs ⊢
        omega
      simp only [mapScan, mapLoop]
      split_ifs with hc
      · rw [ih _ hlen]
        rcases EncodeRune_DecodeRune b t with hbad | hgood
        · rw [hbad] at hc
          simp at hc
        · rw [hc.1, hgood]
      · rfl

/-- The two loops of `strings.Map` together write the encoding of the image of every
rune: `Map` is `mapLoop` over the whole string. -/
theorem Map_eq_mapLoop (f : Nat → Nat) (s : GoString) : Map f s = mapLoop f s.length s :=
  mapScan_eq_mapLoop f s.length s (Nat.le_refl _)

theorem ToUpper_ne_nil (ct : CaseTables) {s : GoString} (hs : s ≠ []) : ToUpper ct s ≠ [] := by
  unfold ToUpper
  split_ifs
  · simpa using hs
  · cases s with
    | nil => exact absurd rfl hs
    | cons b t =>
      rw [Map_eq_mapLoop]
      simp only [List.length_cons, mapLoop]
      intro h
      exact EncodeRune_ne_nil _ (List.append_eq_nil.mp h).1

theorem containsCode_spec (ct : CaseTables) (name code : GoString) (hcode : code ≠ []) :
    ∃ b, containsCode ct name code = .ok b ∧
      (b = true ↔ ∃ idx, wordAt (ToUpper ct name) (ToUpper ct code) idx) := by
  obtain ⟨b, hb, hiff⟩ := containsCodeLoop_spec (ToUpper ct name) (ToUpper ct code)
    (ToUpper_ne_nil ct hcode) ((ToUpper ct name).length + 2) 0 (Nat.zero_le _) (by omega)
  refine ⟨b, hb, ?_⟩
  rw [hiff]
  exact ⟨fun ⟨idx, _, h⟩ => ⟨idx, h⟩, fun ⟨idx, h⟩ => ⟨idx, Nat.zero_le _, h⟩⟩

theorem containsCode_cases (ct : CaseTables) (name code : GoString) (hcode : code ≠ []) :
    (containsCode ct name code = .ok true ↔
      ∃ idx, wordAt (ToUpper ct name) (ToUpper ct code) idx) ∧
    (containsCode ct name code = .ok false ↔
      ¬ ∃ idx, wordAt (ToUpper ct name) (ToUpper ct code) idx) := by
  obtain ⟨b, hb, hiff⟩ := containsCode_spec ct name code hcode
  rw [hb, ← hiff]
  cases b <;> simp

theorem matchCodes_spec (ct : CaseTables) (name : GoString) (codes : List GoString)
    (hcodes : ∀ code ∈ codes, code ≠ []) :
    ∃ b, matchCodes ct name codes = .ok b ∧
      (b = true ↔ ∃ code ∈ codes, containsCode ct name code = .ok true) := by
  induction codes with
  | nil => exact ⟨false, rfl, by simp⟩
  | cons code rest ih =>
    obtain ⟨b, hb, -⟩ := containsCode_spec ct name code (hcodes code (List.mem_cons_self _ _))
    obtain ⟨b', hb', hiff'⟩ := ih (fun c hc => hcodes c (List.mem_cons_of_mem _ hc))
    cases b with
    | true =>
      refine ⟨true, ?_, ?_⟩
      · simp [matchCodes, hb, bind, Except.bind, pure, Except.pure]
      · simp [hb]
    | false =>
      refine ⟨b', ?_, ?_⟩
      · simp [matchCodes, hb, hb', bind, Except.bind]
      · simp [hb, hiff']

theorem matchRule_spec (ct : CaseTables) (name nameLower : GoString) (rule : regionRule)
    (hcodes : ∀ code ∈ rule.codes, code ≠ []) :
    ∃ b, matchRule ct name nameLower rule = .ok b ∧
      (b = true ↔ (∃ emoji ∈ rule.emojis, emoji <:+: name) ∨
        (∃ kw ∈ rule.names, kw <:+: nameLower) ∨
        (∃ code ∈ rule.codes, containsCode ct name code = .ok true)) := by
  unfold matchRule
  by_cases hE : rule.emojis.any (fun emoji => Contains name emoji) = true
  · refine ⟨true, by simp [hE, pure, Except.pure], ?_⟩
    simp only [true_iff]
    left
    simpa [List.any_eq_true, Contains_iff_infix] using hE
  · have hE' : ¬ ∃ emoji ∈ rule.emojis, emoji <:+: name := by
      simpa [List.any_eq_true, Contains_iff_infix] using hE
    by_cases hK : rule.names.any (fun kw => Contains nameLower kw) = true
    · refine ⟨true, by simp [hE, hK, pure, Except.pure], ?_⟩
      simp only [true_iff]
      right; left
      simpa [List.any_eq_true, Contains_iff_infix] using hK
    · have hK' : ¬ ∃ kw ∈ rule.names, kw <:+: nameLower := by
        simpa [List.any_eq_true, Contains_iff_infix] using hK
      obtain ⟨b, hb, hiff⟩ := matchCodes_spec ct name rule.codes hcodes
      refine ⟨b, by simp [hE, hK, hb], ?_⟩
      rw [hiff]
      constructor
      · intro h; exact Or.inr (Or.inr h)
      · rintro (h | h | h)
        · exact absurd h hE'
        · exact absurd h hK'
        · exact h

theorem regionLoop_spec (ct : CaseTables) (name nameLower : GoString) (rules : List regionRule)
    (hcodes : ∀ rule ∈ rules, ∀ code ∈ rule.codes, code ≠ []) :
    regionLoop ct name nameLower rules =
      .ok (match rules.find? (fun rule => decide (matchRule ct name nameLower rule = .ok true)) with
        | some rule => rule.region
        | none => RegionOther) := by
  induction rules with
  | nil => rfl
  | cons rule rest ih =>
    obtain ⟨b, hb, -⟩ := matchRule_spec ct name nameLower rule
      (hcodes rule (List.mem_cons_self _ _))
    have ih' := ih (fun r hr => hcodes r (List.mem_cons_of_mem _ hr))
    cases b with
    | true => simp [regionLoop, hb, bind, Except.bind, pure, Except.pure, List.find?_cons]
    | false =>
      simp [regionLoop, hb, bind, Except.bind, List.find?_cons, ih']

theorem regionRules_codes_ne_nil : ∀ rule ∈ regionRules, ∀ code ∈ rule.codes, code ≠ [] := by
  decide

theorem regionRules_region_ne_other : ∀ rule ∈ regionRules, rule.region ≠ RegionOther := by
  decide

/-! ## Classification: first match wins, totality, examples -/

theorem RegionFromName_eq (ct : CaseTables) (name : GoString) :
    RegionFromName ct name = .ok
      (if name = [] then RegionOther
       else
        match regionRules.find?
            (fun rule => decide (matchRule ct name (ToLower ct name) rule = .ok true)) with
        | some rule => rule.region
        | none => RegionOther) := by
  unfold RegionFromName
  split_ifs with h
  · rfl
  · exact regionLoop_spec ct name (ToLower ct name) regionRules regionRules_codes_ne_nil

theorem matchRule_ne_true_iff (ct : CaseTables) (name : GoString) {rule : regionRule}
    (hr : rule ∈ regionRules) :
    ¬ matchRule ct name (ToLower ct name) rule = .ok true ↔
      matchRule ct name (ToLower ct name) rule = .ok false := by
  obtain ⟨b, hb, -⟩ := matchRule_spec ct name (ToLower ct name) rule
    (regionRules_codes_ne_nil rule hr)
  cases b <;> simp [hb]

/-- C1: for every name, `RegionFromName` returns `RegionOther` on the empty name and
otherwise the region of the first rule of `regionRules`, in declared order, for which
`matchRule(name, ToLower(name), rule)` is true (`RegionOther` when there is none); and the
result is `RegionOther` exactly when the name is empty or `matchRule` is false for every
rule of the table. -/
theorem RegionFromName_first_match (ct : CaseTables) (name : GoString) :
    RegionFromName ct name = .ok
      (if name = [] then RegionOther
       else
        match regionRules.find?
            (fun rule => decide (matchRule ct name (ToLower ct name) rule = .ok true)) with
        | some rule => rule.region
        | none => RegionOther) ∧
    (RegionFromName ct name = .ok RegionOther ↔
      name = [] ∨
        ∀ rule ∈ regionRules, matchRule ct name (ToLower ct name) rule = .ok false) := by
  refine ⟨RegionFromName_eq ct name, ?_⟩
  rw [RegionFromName_eq]
  by_cases h : name = []
  · simp [h]
  · simp only [h, if_false, false_or, Except.ok.injEq]
    cases hf : regionRules.find?
        (fun rule => decide (matchRule ct name (ToLower ct name) rule = .ok true)) with
    | none =>
      simp only [true_iff]
      intro rule hr
      have h1 := List.find?_eq_none.mp hf rule hr
      exact (matchRule_ne_true_iff ct name hr).mp (by simpa using h1)
    | some rule =>
      have hmem := List.mem_of_find?_eq_some hf
      have hp := List.find?_some hf
      simp only
      constructor
      · intro h2
        exact absurd h2 (regionRules_region_ne_other rule hmem)
      · intro h2
        have h3 := h2 rule hmem
        simp [h3] at hp

/-- C9: `RegionFromName` is total: for every input it returns a value (no slice or index
panic, no exhausted loop budget), and that value is `RegionOther` or the region of one of
the 17 rules of `regionRules`, whose regions are HK, TW, JP, KR, US, SG, GB, DE, FR, NL,
CA, AU, PH, IN, RU, TR, TH. -/
theorem RegionFromName_total (ct : CaseTables) (name : GoString) :
    (∃ r, RegionFromName ct name = .ok r ∧
      (r = RegionOther ∨ ∃ rule ∈ regionRules, rule.region = r)) ∧
    regionRules.map (fun rule => rule.region) =
      [RegionHK, RegionTW, RegionJP, RegionKR, RegionUS, RegionSG, RegionGB, RegionDE,
        RegionFR, RegionNL, RegionCA, RegionAU, RegionPH, RegionIN, RegionRU, RegionTR,
        RegionTH] := by
  refine ⟨⟨_, RegionFromName_eq ct name, ?_⟩, rfl⟩
  split_ifs with h
  · exact Or.inl rfl
  · cases hf : regionRules.find?
        (fun rule => decide (matchRule ct name (ToLower ct name) rule = .ok true)) with
    | none => exact Or.inl rfl
    | some rule => exact Or.inr ⟨rule, List.mem_of_find?_eq_some hf, rfl⟩

/-- C10: the end-to-end examples of the spec: the flag-and-Chinese name gives HK,
"korea-seoul-premium" gives KR, "US-01" and "USA-Premium" give US, and "THRUST-01",
"CHECK-01" and the empty name give OTHER, no rule of the table matching these three. -/
theorem RegionFromName_examples (ct : CaseTables) :
    RegionFromName ct (utf8 "🇭🇰 香港 01 | IPLC") = .ok RegionHK ∧
    RegionFromName ct (utf8 "korea-seoul-premium") = .ok RegionKR ∧
    RegionFromName ct (utf8 "US-01") = .ok RegionUS ∧
    RegionFromName ct (utf8 "USA-Premium") = .ok RegionUS ∧
    RegionFromName ct (utf8 "THRUST-01") = .ok RegionOther ∧
    RegionFromName ct (utf8 "CHECK-01") = .ok RegionOther ∧
    RegionFromName ct (utf8 "") = .ok RegionOther ∧
    regionRules.map (matchRule ct (utf8 "THRUST-01") (ToLower ct (utf8 "THRUST-01"))) =
      List.replicate 17 (.ok false) ∧
    regionRules.map (matchRule ct (utf8 "CHECK-01") (ToLower ct (utf8 "CHECK-01"))) =
      List.replicate 17 (.ok false) ∧
    regionRules.map (matchRule ct (utf8 "") (ToLower ct (utf8 ""))) =
      List.replicate 17 (.ok false) :=
  ⟨rfl, rfl, rfl, rfl, rfl, rfl, rfl, rfl, rfl, rfl⟩

/-- C2: for every name and every non-empty code, `containsCode(name, code)` returns, and
it returns true if and only if `ToUpper(code)` occurs in `U = ToUpper(name)` at some
offset `idx` where `idx == 0` or `U[idx-1]` is not an ASCII letter, and
`idx + len == len(U)` or `U[idx+len]` is not an ASCII letter (the predicate `wordAt`);
otherwise it returns false. -/
theorem containsCode_iff_word_occurrence (ct : CaseTables) (name code : GoString)
    (hcode : code ≠ []) :
    (containsCode ct name code = .ok true ↔
      ∃ idx, wordAt (ToUpper ct name) (ToUpper ct code) idx) ∧
    (containsCode ct name code = .ok false ↔
      ¬ ∃ idx, wordAt (ToUpper ct name) (ToUpper ct code) idx) :=
  containsCode_cases ct name code hcode

theorem containsCode_iff_word_occurrence_witness :
    utf8 "HK" ≠ [] ∧
    (containsCode CaseTables.trivial (utf8 "HK-01") (utf8 "HK") = .ok true ↔
      ∃ idx, wordAt (ToUpper CaseTables.trivial (utf8 "HK-01"))
        (ToUpper CaseTables.trivial (utf8 "HK")) idx) ∧
    (containsCode CaseTables.trivial (utf8 "HK-01") (utf8 "HK") = .ok false ↔
      ¬ ∃ idx, wordAt (ToUpper CaseTables.trivial (utf8 "HK-01"))
        (ToUpper CaseTables.trivial (utf8 "HK")) idx) :=
  ⟨by decide, containsCode_iff_word_occurrence CaseTables.trivial (utf8 "HK-01") (utf8 "HK")
    (by decide)⟩

/-! ## Every pattern class against rule order -/

theorem regionLoop_first (ct : CaseTables) (name nameLower : GoString) :
    ∀ (rules : List regionRule) (i : Nat) (rule : regionRule), rules[i]? = some rule →
      (∀ r ∈ rules.take i, matchRule ct name nameLower r = .ok false) →
      matchRule ct name nameLower rule = .ok true →
      regionLoop ct name nameLower rules = .ok rule.region := by
  intro rules
  induction rules with
  | nil => intro i rule h; simp at h
  | cons r rest ih =>
    intro i rule h hpre hm
    cases i with
    | zero =>
      simp only [List.getElem?_cons_zero, Option.some.injEq] at h
      subst h
      simp [regionLoop, hm, bind, Except.bind, pure, Except.pure]
    | succ k =>
      have h0 : matchRule ct name nameLower r = .ok false :=
        hpre r (by simp [List.take_succ_cons])
      have h1 := ih k rule (by simpa using h)
        (fun r' hr' => hpre r' (by simp [List.take_succ_cons, hr'])) hm
      simp [regionLoop, h0, bind, Except.bind, h1]

theorem regionRules_emojis_ne_nil : ∀ rule ∈ regionRules, ∀ e ∈ rule.emojis, e ≠ [] := by
  decide

theorem regionRules_names_ne_nil : ∀ rule ∈ regionRules, ∀ kw ∈ rule.names, kw ≠ [] := by
  decide

theorem ToLower_nil (ct : CaseTables) : ToLower ct [] = [] := rfl

theorem ToUpper_nil (ct : CaseTables) : ToUpper ct [] = [] := rfl

theorem RegionFromName_of_first (ct : CaseTables) (s : GoString) (i : Nat) (rule : regionRule)
    (hs : s ≠ []) (hrule : regionRules[i]? = some rule)
    (hpre : ∀ r ∈ regionRules.take i, matchRule ct s (ToLower ct s) r = .ok false)
    (hm : matchRule ct s (ToLower ct s) rule = .ok true) :
    RegionFromName ct s = .ok rule.region := by
  unfold RegionFromName
  rw [if_neg hs]
  exact regionLoop_first ct s (ToLower ct s) regionRules i rule hrule hpre hm

/-- C4, counterexample: the name "🇭🇰 to 🇯🇵" contains the emoji of the JP rule, and
`RegionFromName` returns HK, the region of the earlier rule whose emoji it also
contains, whatever the case tables. -/
theorem emoji_any_context_counterexample :
    ¬ ∃ ct : CaseTables, ∀ (rule : regionRule) (E s : GoString),
        rule ∈ regionRules → E ∈ rule.emojis → E <:+: s →
        RegionFromName ct s = .ok rule.region := by
  rintro ⟨ct, h⟩
  have hr : regionRules[2]? = some
      { region := RegionJP, emojis := [utf8 "🇯🇵"],
        names := ["日本", "东京", "大阪", "japan", "tokyo", "osaka"].map utf8,
        codes := [utf8 "JP"] } := rfl
  have h1 := h _ (utf8 "🇯🇵") (utf8 "🇭🇰 to 🇯🇵") (List.getElem?_mem hr)
    (List.mem_singleton.mpr rfl) ⟨utf8 "🇭🇰 to ", [], by decide⟩
  have h2 : RegionFromName ct (utf8 "🇭🇰 to 🇯🇵") = .ok RegionHK := rfl
  rw [h2] at h1
  cases h1

/-- C4, amended: for every rule of `regionRules` with region R and every emoji E of that
rule, and every string s that contains E and that no earlier rule of the table matches,
`RegionFromName(s) == R`. -/
theorem emoji_classifies_unless_earlier_rule (ct : CaseTables) (i : Nat) (rule : regionRule)
    (E s : GoString) (hrule : regionRules[i]? = some rule) (hE : E ∈ rule.emojis)
    (hs : E <:+: s)
    (hpre : ∀ r ∈ regionRules.take i, matchRule ct s (ToLower ct s) r = .ok false) :
    RegionFromName ct s = .ok rule.region := by
  have hmem := List.getElem?_mem hrule
  have hne : s ≠ [] := by
    rintro rfl
    exact regionRules_emojis_ne_nil rule hmem E hE (List.infix_nil.mp hs)
  obtain ⟨b, hb, hiff⟩ := matchRule_spec ct s (ToLower ct s) rule
    (regionRules_codes_ne_nil rule hmem)
  have hbt : b = true := hiff.mpr (Or.inl ⟨E, hE, hs⟩)
  rw [hbt] at hb
  exact RegionFromName_of_first ct s i rule hne hrule hpre hb

theorem emoji_classifies_unless_earlier_rule_witness :
    RegionFromName CaseTables.trivial (utf8 "v2-🇯🇵 Tokyo") = .ok RegionJP :=
  emoji_classifies_unless_earlier_rule CaseTables.trivial 2
    { region := RegionJP, emojis := [utf8 "🇯🇵"],
      names := ["日本", "东京", "大阪", "japan", "tokyo", "osaka"].map utf8,
      codes := [utf8 "JP"] }
    (utf8 "🇯🇵") (utf8 "v2-🇯🇵 Tokyo") rfl (List.mem_singleton.mpr rfl)
    ⟨utf8 "v2-", utf8 " Tokyo", by decide⟩ (by decide)

/-- C5, counterexample: the lowered form of "Hong Kong to Tokyo" contains the keyword
"tokyo" of the JP rule, and `RegionFromName` returns HK, the region of the earlier rule
whose keyword "hong kong" it also contains, whatever the case tables. -/
theorem keyword_any_context_counterexample :
    ¬ ∃ ct : CaseTables, ∀ (rule : regionRule) (K s : GoString),
        rule ∈ regionRules → K ∈ rule.names → K <:+: ToLower ct s →
        RegionFromName ct s = .ok rule.region := by
  rintro ⟨ct, h⟩
  have hr : regionRules[2]? = some
      { region := RegionJP, emojis := [utf8 "🇯🇵"],
        names := ["日本", "东京", "大阪", "japan", "tokyo", "osaka"].map utf8,
        codes := [utf8 "JP"] } := rfl
  have hl : ToLower ct (utf8 "Hong Kong to Tokyo") = utf8 "hong kong to tokyo" := rfl
  have h1 := h _ (utf8 "tokyo") (utf8 "Hong Kong to Tokyo")
    (List.getElem?_mem hr) (by decide) ⟨utf8 "hong kong to ", [], by rw [hl]; decide⟩
  have h2 : RegionFromName ct (utf8 "Hong Kong to Tokyo") = .ok RegionHK := rfl
  rw [h2] at h1
  cases h1

/-- C5, amended: for every rule of `regionRules` with region R and every keyword K of that
rule, and every string s whose lowered form `ToLower(s)` contains K and that no earlier
rule of the table matches, `RegionFromName(s) == R`. -/
theorem keyword_classifies_unless_earlier_rule (ct : CaseTables) (i : Nat) (rule : regionRule)
    (K s : GoString) (hrule : regionRules[i]? = some rule) (hK : K ∈ rule.names)
    (hs : K <:+: ToLower ct s)
    (hpre : ∀ r ∈ regionRules.take i, matchRule ct s (ToLower ct s) r = .ok false) :
    RegionFromName ct s = .ok rule.region := by
  have hmem := List.getElem?_mem hrule
  have hne : s ≠ [] := by
    rintro rfl
    rw [ToLower_nil] at hs
    exact regionRules_names_ne_nil rule hmem K hK (List.infix_nil.mp hs)
  obtain ⟨b, hb, hiff⟩ := matchRule_spec ct s (ToLower ct s) rule
    (regionRules_codes_ne_nil rule hmem)
  have hbt : b = true := hiff.mpr (Or.inr (Or.inl ⟨K, hK, hs⟩))
  rw [hbt] at hb
  exact RegionFromName_of_first ct s i rule hne hrule hpre hb

theorem keyword_classifies_unless_earlier_rule_witness :
    RegionFromName CaseTables.trivial (utf8 "Japan Tokyo 01") = .ok RegionJP :=
  keyword_classifies_unless_earlier_rule CaseTables.trivial 2
    { region := RegionJP, emojis := [utf8 "🇯🇵"],
      names := ["日本", "东京", "大阪", "japan", "tokyo", "osaka"].map utf8,
      codes := [utf8 "JP"] }
    (utf8 "tokyo") (utf8 "Japan Tokyo 01") rfl (by decide)
    ⟨utf8 "japan ", utf8 " 01", by decide⟩ (by decide)

/-! ## The ASCII path of the case conversions -/

theorem isASCIILetter_iff (b : Nat) :
    isASCIILetter b = true ↔ (0x41 ≤ b ∧ b ≤ 0x5A) ∨ (0x61 ≤ b ∧ b ≤ 0x7A) := by
  simp [isASCIILetter]

theorem isASCIILetter_eq_false_iff (b : Nat) :
    isASCIILetter b = false ↔ ¬ ((0x41 ≤ b ∧ b ≤ 0x5A) ∨ (0x61 ≤ b ∧ b ≤ 0x7A)) := by
  rw [← isASCIILetter_iff]; simp

theorem isASCIILetter_upperByte (b : Nat) :
    isASCIILetter (upperByte b) = isASCIILetter b := by
  rw [Bool.eq_iff_iff, isASCIILetter_iff, isASCIILetter_iff]
  unfold upperByte
  split_ifs <;> omega

theorem caseEq_iff (x y : Nat) :
    caseEq x y = true ↔
      x = y ∨ (isASCIILetter x = true ∧ isASCIILetter y = true ∧ (x + 0x20 = y ∨ y + 0x20 = x)) := by
  simp [caseEq, and_assoc]

theorem caseEq_upperByte {x y : Nat} (h : caseEq x y = true) : upperByte x = upperByte y := by
  rw [caseEq_iff, isASCIILetter_iff, isASCIILetter_iff] at h
  unfold upperByte
  split_ifs <;> omega

theorem caseEq_lowerByte {x y : Nat} (h : caseEq x y = true) : lowerByte x = lowerByte y := by
  rw [caseEq_iff, isASCIILetter_iff, isASCIILetter_iff] at h
  unfold lowerByte
  split_ifs <;> omega

theorem caseEq_ascii {x y : Nat} (h : caseEq x y = true) : x < RuneSelf ↔ y < RuneSelf := by
  rw [caseEq_iff, isASCIILetter_iff, isASCIILetter_iff] at h
  unfold RuneSelf
  omega

theorem caseEq_letter {x y : Nat} (h : caseEq x y = true) :
    isASCIILetter x = isASCIILetter y := by
  rw [Bool.eq_iff_iff]
  rw [caseEq_iff] at h
  rcases h with h | ⟨h1, h2, -⟩
  · rw [h]
  · simp [h1, h2]

theorem caseVariant_cons {x y : Nat} {xs ys : GoString} :
    caseVariant (x :: xs) (y :: ys) = true ↔ caseEq x y = true ∧ caseVariant xs ys = true := by
  simp [caseVariant]

theorem caseVariant_map_upperByte :
    ∀ {xs ys : GoString}, caseVariant xs ys = true → xs.map upperByte = ys.map upperByte
  | [], [], _ => rfl
  | [], _ :: _, h => by simp [caseVariant] at h
  | _ :: _, [], h => by simp [caseVariant] at h
  | x :: xs, y :: ys, h => by
    rw [caseVariant_cons] at h
    simp [caseEq_upperByte h.1, caseVariant_map_upperByte h.2]

theorem caseVariant_ascii :
    ∀ {xs ys : GoString}, caseVariant xs ys = true →
      ((∀ b ∈ xs, b < RuneSelf) ↔ ∀ b ∈ ys, b < RuneSelf)
  | [], [], _ => by simp
  | [], _ :: _, h => by simp [caseVariant] at h
  | _ :: _, [], h => by simp [caseVariant] at h
  | x :: xs, y :: ys, h => by
    rw [caseVariant_cons] at h
    simp [caseEq_ascii h.1, caseVariant_ascii h.2]

theorem ToUpper_ascii (ct : CaseTables) {s : GoString} (h : ∀ b ∈ s, b < RuneSelf) :
    ToUpper ct s = s.map upperByte := by
  unfold ToUpper
  rw [if_pos]
  simpa [List.all_eq_true] using h

theorem ToLower_ascii (ct : CaseTables) {s : GoString} (h : ∀ b ∈ s, b < RuneSelf) :
    ToLower ct s = s.map lowerByte := by
  unfold ToLower
  rw [if_pos]
  simpa [List.all_eq_true] using h

theorem lt_RuneSelf_of_letter {b : Nat} (h : isASCIILetter b = true) : b < RuneSelf := by
  rw [isASCIILetter_iff] at h
  unfold RuneSelf
  omega

theorem wordAt_append (P C Q : GoString)
    (hP : P = [] ∨ ∃ b, P.getLast? = some b ∧ isASCIILetter b = false)
    (hQ : Q = [] ∨ ∃ b, Q.head? = some b ∧ isASCIILetter b = false) :
    wordAt (P ++ C ++ Q) C P.length := by
  refine ⟨?_, ?_, ?_⟩
  · rw [List.append_assoc, List.drop_left]
    exact List.prefix_append C Q
  · rcases hP with rfl | ⟨b, hb, hl⟩
    · exact Or.inl rfl
    · right
      obtain ⟨ys, rfl⟩ := List.getLast?_eq_some_iff.mp hb
      refine ⟨b, ?_, hl⟩
      have e : (ys ++ [b]).length - 1 = ys.length := by simp
      rw [e, List.append_assoc, List.append_assoc,
        List.getElem?_append_right (Nat.le_refl _)]
      simp
  · rcases hQ with rfl | ⟨b, hb, hl⟩
    · left; simp
    · right
      obtain ⟨ys, rfl⟩ := List.head?_eq_some_iff.mp hb
      refine ⟨b, ?_, hl⟩
      have e : P.length + C.length = (P ++ C).length := by simp
      rw [e, List.getElem?_append_right (Nat.le_refl _)]
      simp

theorem regionRules_codes_upper :
    ∀ rule ∈ regionRules, ∀ code ∈ rule.codes,
      code.all (fun b => decide (b < RuneSelf)) = true ∧ code.map upperByte = code := by
  decide

theorem ToUpper_table_code (ct : CaseTables) {rule : regionRule} (hr : rule ∈ regionRules)
    {code : GoString} (hc : code ∈ rule.codes) : ToUpper ct code = code := by
  obtain ⟨h1, h2⟩ := regionRules_codes_upper rule hr code hc
  rw [ToUpper_ascii ct (by simpa [List.all_eq_true] using h1), h2]

theorem RegionFromName_of_code (ct : CaseTables) (i : Nat) (rule : regionRule)
    (C s : GoString) (idx : Nat) (hrule : regionRules[i]? = some rule) (hC : C ∈ rule.codes)
    (hs : wordAt (ToUpper ct s) C idx)
    (hpre : ∀ r ∈ regionRules.take i, matchRule ct s (ToLower ct s) r = .ok false) :
    RegionFromName ct s = .ok rule.region := by
  have hmem := List.getElem?_mem hrule
  have hCne : C ≠ [] := regionRules_codes_ne_nil rule hmem C hC
  have hne : s ≠ [] := by
    rintro rfl
    rw [ToUpper_nil] at hs
    have h1 := hs.1
    rw [List.drop_nil, List.prefix_nil] at h1
    exact hCne h1
  obtain ⟨b, hb, hiff⟩ := containsCode_spec ct s C hCne
  rw [ToUpper_table_code ct hmem hC] at hiff
  have hbt : b = true := hiff.mpr ⟨idx, hs⟩
  rw [hbt] at hb
  obtain ⟨b', hb', hiff'⟩ := matchRule_spec ct s (ToLower ct s) rule
    (regionRules_codes_ne_nil rule hmem)
  have hbt' : b' = true := hiff'.mpr (Or.inr (Or.inr ⟨C, hC, hb⟩))
  rw [hbt'] at hb'
  exact RegionFromName_of_first ct s i rule hne hrule hpre hb'

theorem wordAt_map_upperByte {s C : GoString} {idx : Nat} (h : wordAt s C idx) :
    wordAt (s.map upperByte) (C.map upperByte) idx := by
  obtain ⟨h1, h2, h3⟩ := h
  refine ⟨?_, ?_, ?_⟩
  · rw [← List.map_drop]
    exact h1.map upperByte
  · rcases h2 with h2 | ⟨b, hb, hl⟩
    · exact Or.inl h2
    · right
      refine ⟨upperByte b, ?_, by rw [isASCIILetter_upperByte]; exact hl⟩
      rw [List.getElem?_map, hb]
      rfl
  · rcases h3 with h3 | ⟨b, hb, hl⟩
    · left
      simpa using h3
    · right
      refine ⟨upperByte b, ?_, by rw [isASCIILetter_upperByte]; exact hl⟩
      rw [List.getElem?_map, List.length_map, hb]
      rfl

/-- For an all-ASCII name the boundary test can be read on the name itself: if a code of
a rule occurs in it in any letter case between non-letters or string edges, and no
earlier rule matches, the name gets the region of the rule. -/
theorem RegionFromName_of_code_ascii (ct : CaseTables) (i : Nat) (rule : regionRule)
    (C C' s : GoString) (idx : Nat) (hrule : regionRules[i]? = some rule)
    (hC : C ∈ rule.codes) (hascii : ∀ b ∈ s, b < RuneSelf)
    (hvar : caseVariant C' C = true) (hs : wordAt s C' idx)
    (hpre : ∀ r ∈ regionRules.take i, matchRule ct s (ToLower ct s) r = .ok false) :
    RegionFromName ct s = .ok rule.region := by
  have hmem := List.getElem?_mem hrule
  refine RegionFromName_of_code ct i rule C s idx hrule hC ?_ hpre
  have h := wordAt_map_upperByte hs
  rw [caseVariant_map_upperByte hvar, (regionRules_codes_upper rule hmem C hC).2] at h
  rw [ToUpper_ascii ct hascii]
  exact h

/-- The boundary test reads the upper-cased name, not the name: with U+0131 upper-cased
to "I", the code "HK" stands after a non-letter in "ıHK" and after a letter in its
upper-cased form "IHK", and the name is not classified. -/
theorem wordAt_name_not_sufficient :
    wordAt (utf8 "ıHK") (utf8 "HK") 2 ∧
    ToUpper CaseTables.excerpt (utf8 "ıHK") = utf8 "IHK" ∧
    containsCode CaseTables.excerpt (utf8 "ıHK") (utf8 "HK") = .ok false ∧
    RegionFromName CaseTables.excerpt (utf8 "ıHK") = .ok RegionOther :=
  ⟨⟨by decide, Or.inr ⟨0xB1, rfl, rfl⟩, Or.inl rfl⟩, rfl, rfl, rfl⟩

/-- C7: for every non-empty code c of ASCII letters, every ASCII-case variant c' of c, and
all ASCII strings pre and post with pre empty or ending in a byte that is not an ASCII
letter and post empty or starting with such a byte, `containsCode(pre ++ c' ++ post, c)`
is true; in particular for "HK01", "HK-01", "hk-01", " SG " and "SG". -/
theorem containsCode_at_boundaries (ct : CaseTables) (c c' pre post : GoString)
    (hc : c ≠ []) (hletters : ∀ b ∈ c, isASCIILetter b = true)
    (hvar : caseVariant c' c = true)
    (hpre : ∀ b ∈ pre, b < RuneSelf) (hpost : ∀ b ∈ post, b < RuneSelf)
    (hleft : pre = [] ∨ ∃ b, pre.getLast? = some b ∧ isASCIILetter b = false)
    (hright : post = [] ∨ ∃ b, post.head? = some b ∧ isASCIILetter b = false) :
    containsCode ct (pre ++ c' ++ post) c = .ok true ∧
    containsCode ct (utf8 "HK01") (utf8 "HK") = .ok true ∧
    containsCode ct (utf8 "HK-01") (utf8 "HK") = .ok true ∧
    containsCode ct (utf8 "hk-01") (utf8 "HK") = .ok true ∧
    containsCode ct (utf8 " SG ") (utf8 "SG") = .ok true ∧
    containsCode ct (utf8 "SG") (utf8 "SG") = .ok true := by
  refine ⟨?_, rfl, rfl, rfl, rfl, rfl⟩
  have hcA : ∀ b ∈ c, b < RuneSelf := fun b hb => lt_RuneSelf_of_letter (hletters b hb)
  have hc'A : ∀ b ∈ c', b < RuneSelf := (caseVariant_ascii hvar).mpr hcA
  have hname : ∀ b ∈ pre ++ c' ++ post, b < RuneSelf := by
    intro b hb
    simp only [List.mem_append] at hb
    rcases hb with (hb | hb) | hb
    · exact hpre b hb
    · exact hc'A b hb
    · exact hpost b hb
  obtain ⟨b, hb, hiff⟩ := containsCode_spec ct (pre ++ c' ++ post) c hc
  rw [ToUpper_ascii ct hname, ToUpper_ascii ct hcA] at hiff
  have hw : wordAt ((pre ++ c' ++ post).map upperByte) (c.map upperByte) pre.length := by
    rw [List.map_append, List.map_append, caseVariant_map_upperByte hvar]
    have h := wordAt_append (pre.map upperByte) (c.map upperByte) (post.map upperByte) ?_ ?_
    · simpa using h
    · rcases hleft with rfl | ⟨x, hx, hl⟩
      · exact Or.inl rfl
      · right
        obtain ⟨ys, rfl⟩ := List.getLast?_eq_some_iff.mp hx
        exact ⟨upperByte x, by simp, by rw [isASCIILetter_upperByte]; exact hl⟩
    · rcases hright with rfl | ⟨x, hx, hl⟩
      · exact Or.inl rfl
      · right
        obtain ⟨ys, rfl⟩ := List.head?_eq_some_iff.mp hx
        exact ⟨upperByte x, by simp, by rw [isASCIILetter_upperByte]; exact hl⟩
  have hbt : b = true := hiff.mpr ⟨pre.length, hw⟩
  rw [hbt] at hb
  exact hb

theorem containsCode_at_boundaries_witness :
    containsCode CaseTables.trivial (utf8 "Premium " ++ utf8 "hk" ++ utf8 "-01") (utf8 "HK") =
      .ok true :=
  (containsCode_at_boundaries CaseTables.trivial (utf8 "HK") (utf8 "hk") (utf8 "Premium ")
    (utf8 "-01") (by decide) (by decide) (by decide) (by decide) (by decide)
    (Or.inr ⟨0x20, rfl, rfl⟩) (Or.inr ⟨0x2D, rfl, rfl⟩)).1

/-! ## Word occurrences and maximal letter runs -/

theorem takeWhile_letters_eq {r l : GoString} (hp : r <+: l)
    (hl : ∀ x ∈ r, isASCIILetter x = true)
    (hend : r.length = l.length ∨ ∃ b, l[r.length]? = some b ∧ isASCIILetter b = false) :
    l.takeWhile isASCIILetter = r := by
  obtain ⟨q, rfl⟩ := hp
  rw [List.takeWhile_append_of_pos hl]
  cases q with
  | nil => simp
  | cons b q =>
    rcases hend with h | ⟨x, hx, hxl⟩
    · simp at h
    · rw [List.getElem?_append_right (Nat.le_refl _)] at hx
      simp only [Nat.sub_self, List.getElem?_cons_zero, Option.some.injEq] at hx
      subst hx
      rw [List.takeWhile_cons_of_neg (by simp [hxl])]
      simp

theorem takeWhile_letters_end (l : GoString) :
    (l.takeWhile isASCIILetter).length = l.length ∨
      ∃ b, l[(l.takeWhile isASCIILetter).length]? = some b ∧ isASCIILetter b = false := by
  induction l with
  | nil => left; rfl
  | cons b t ih =>
    by_cases hb : isASCIILetter b = true
    · rw [List.takeWhile_cons_of_pos hb]
      rcases ih with h | ⟨x, hx, hxl⟩
      · left; simp [h]
      · right; exact ⟨x, by simpa using hx, hxl⟩
    · right
      rw [List.takeWhile_cons_of_neg hb]
      exact ⟨b, by simp, by simpa using hb⟩

theorem runAt_succ (p : Bool) (b : Nat) (t r : GoString) (k : Nat) :
    runAt p (b :: t) r (k + 1) ↔ runAt (isASCIILetter b) t r k := by
  unfold runAt
  have e1 : k + 1 + r.length = (k + r.length) + 1 := by omega
  have hB : ((k + 1 = 0 ∧ p = false) ∨
        (k + 1 ≠ 0 ∧ ∃ x, (b :: t)[k + 1 - 1]? = some x ∧ isASCIILetter x = false)) ↔
      ((k = 0 ∧ isASCIILetter b = false) ∨
        (k ≠ 0 ∧ ∃ x, t[k - 1]? = some x ∧ isASCIILetter x = false)) := by
    cases k with
    | zero => simp
    | succ j => simp
  rw [hB, e1]
  simp

theorem mem_letterRunsFrom_of_tail {r : GoString} (p : Bool) (b : Nat) (t : GoString)
    (h : r ∈ letterRunsFrom (isASCIILetter b) t) : r ∈ letterRunsFrom p (b :: t) := by
  unfold letterRunsFrom
  by_cases hb : isASCIILetter b = true
  · rw [hb] at h
    cases p <;> simp [hb, h]
  · have hb' : isASCIILetter b = false := by simpa using hb
    rw [hb'] at h
    simp [hb', h]

theorem mem_letterRunsFrom_iff (r : GoString) (hr : r ≠ [])
    (hl : ∀ x ∈ r, isASCIILetter x = true) :
    ∀ (s : GoString) (p : Bool), r ∈ letterRunsFrom p s ↔ ∃ idx, runAt p s r idx := by
  intro s
  induction s with
  | nil =>
    intro p
    simp only [letterRunsFrom, List.not_mem_nil, false_iff, not_exists]
    intro idx h
    have h1 := h.1
    rw [List.drop_nil, List.prefix_nil] at h1
    exact hr h1
  | cons b t ih =>
    intro p
    constructor
    · intro h
      unfold letterRunsFrom at h
      by_cases hb : isASCIILetter b = true
      · cases p with
        | true =>
          simp only [hb, if_true] at h
          obtain ⟨k, hk⟩ := (ih true).mp h
          exact ⟨k + 1, (runAt_succ _ _ _ _ _).mpr (by rw [hb]; exact hk)⟩
        | false =>
          simp only [hb, if_true, Bool.false_eq_true, if_false, List.mem_cons] at h
          rcases h with h | h
          · refine ⟨0, ?_, Or.inl ⟨rfl, rfl⟩, ?_⟩
            · rw [h]; exact List.takeWhile_prefix _
            · rw [h]; simpa using takeWhile_letters_end (b :: t)
          · obtain ⟨k, hk⟩ := (ih true).mp h
            exact ⟨k + 1, (runAt_succ _ _ _ _ _).mpr (by rw [hb]; exact hk)⟩
      · have hb' : isASCIILetter b = false := by simpa using hb
        simp only [hb', Bool.false_eq_true, if_false] at h
        obtain ⟨k, hk⟩ := (ih false).mp h
        exact ⟨k + 1, (runAt_succ _ _ _ _ _).mpr (by rw [hb']; exact hk)⟩
    · rintro ⟨idx, h⟩
      cases idx with
      | zero =>
        obtain ⟨h1, h2, h3⟩ := h
        have hp : p = false := by
          rcases h2 with ⟨-, hp⟩ | ⟨h0, -⟩
          · exact hp
          · exact absurd rfl h0
        have h1' : r <+: b :: t := by simpa using h1
        have htw := takeWhile_letters_eq h1' hl (by simpa using h3)
        have hb : isASCIILetter b = true := by
          cases r with
          | nil => exact absurd rfl hr
          | cons x r' =>
            have hx := (List.cons_prefix_cons.mp h1').1
            rw [← hx]
            exact hl x (List.mem_cons_self _ _)
        unfold letterRunsFrom
        simp [hb, hp, htw]
      | succ k =>
        have hk := (runAt_succ _ _ _ _ _).mp h
        exact mem_letterRunsFrom_of_tail p b t ((ih _).mpr ⟨k, hk⟩)

theorem wordAt_iff_runAt (s r : GoString) (idx : Nat) : wordAt s r idx ↔ runAt false s r idx := by
  unfold wordAt runAt
  by_cases h0 : idx = 0
  · simp [h0]
  · simp [h0]

theorem mem_letterRuns_iff (s r : GoString) (hr : r ≠ [])
    (hl : ∀ x ∈ r, isASCIILetter x = true) :
    r ∈ letterRuns s ↔ ∃ idx, wordAt s r idx := by
  unfold letterRuns
  rw [mem_letterRunsFrom_iff r hr hl s false]
  simp only [wordAt_iff_runAt]

/-- C3: for every name and every non-empty code made only of ASCII letters,
`containsCode(name, code)` is true if and only if the upper-cased code is one of the
maximal runs of ASCII letters of the upper-cased name, and false otherwise; so "HK" is not
matched in "CHECK" or "THKU", "US" not in "THRUST", "SG" not in "MSG01" and "USA" not in
"US-01". -/
theorem containsCode_iff_letter_run (ct : CaseTables) (name code : GoString)
    (hcode : code ≠ []) (hletters : ∀ b ∈ code, isASCIILetter b = true) :
    (containsCode ct name code = .ok true ↔
      ToUpper ct code ∈ letterRuns (ToUpper ct name)) ∧
    (containsCode ct name code = .ok false ↔
      ToUpper ct code ∉ letterRuns (ToUpper ct name)) ∧
    containsCode ct (utf8 "CHECK") (utf8 "HK") = .ok false ∧
    containsCode ct (utf8 "THKU") (utf8 "HK") = .ok false ∧
    containsCode ct (utf8 "THRUST") (utf8 "US") = .ok false ∧
    containsCode ct (utf8 "MSG01") (utf8 "SG") = .ok false ∧
    containsCode ct (utf8 "US-01") (utf8 "USA") = .ok false := by
  refine ⟨?_, ?_, rfl, rfl, rfl, rfl, rfl⟩
  all_goals
    have hU : ToUpper ct code = code.map upperByte :=
      ToUpper_ascii ct (fun b hb => lt_RuneSelf_of_letter (hletters b hb))
    have hne : ToUpper ct code ≠ [] := ToUpper_ne_nil ct hcode
    have hl : ∀ x ∈ ToUpper ct code, isASCIILetter x = true := by
      rw [hU]
      intro x hx
      obtain ⟨y, hy, rfl⟩ := List.mem_map.mp hx
      rw [isASCIILetter_upperByte]
      exact hletters y hy
    rw [mem_letterRuns_iff _ _ hne hl]
  · exact (containsCode_cases ct name code hcode).1
  · exact (containsCode_cases ct name code hcode).2

theorem containsCode_iff_letter_run_witness :
    (containsCode CaseTables.trivial (utf8 "Premium HK 高速") (utf8 "hk") = .ok true ↔
      ToUpper CaseTables.trivial (utf8 "hk") ∈
        letterRuns (ToUpper CaseTables.trivial (utf8 "Premium HK 高速"))) ∧
    (containsCode CaseTables.trivial (utf8 "Premium HK 高速") (utf8 "hk") = .ok false ↔
      ToUpper CaseTables.trivial (utf8 "hk") ∉
        letterRuns (ToUpper CaseTables.trivial (utf8 "Premium HK 高速"))) :=
  ⟨(containsCode_iff_letter_run CaseTables.trivial (utf8 "Premium HK 高速") (utf8 "hk")
      (by decide) (by decide)).1,
   (containsCode_iff_letter_run CaseTables.trivial (utf8 "Premium HK 高速") (utf8 "hk")
      (by decide) (by decide)).2.1⟩

/-! ## Insensitivity to ASCII letter case -/

theorem caseEq_eq_or_ascii {x y : Nat} (h : caseEq x y = true) :
    x = y ∨ (x < 0x80 ∧ y < 0x80) := by
  rw [caseEq_iff, isASCIILetter_iff, isASCIILetter_iff] at h
  omega

theorem caseEq_refl (x : Nat) : caseEq x x = true := by
  rw [caseEq_iff]; exact Or.inl rfl

theorem caseVariant_length :
    ∀ {xs ys : GoString}, caseVariant xs ys = true → xs.length = ys.length
  | [], [], _ => rfl
  | [], _ :: _, h => by simp [caseVariant] at h
  | _ :: _, [], h => by simp [caseVariant] at h
  | x :: xs, y :: ys, h => by
    rw [caseVariant_cons] at h
    simp [caseVariant_length h.2]

theorem caseVariant_drop :
    ∀ (k : Nat) {xs ys : GoString}, caseVariant xs ys = true →
      caseVariant (xs.drop k) (ys.drop k) = true
  | 0, _, _, h => by simpa using h
  | _ + 1, [], [], _ => by simp [caseVariant]
  | _ + 1, [], _ :: _, h => by simp [caseVariant] at h
  | _ + 1, _ :: _, [], h => by simp [caseVariant] at h
  | k + 1, x :: xs, y :: ys, h => by
    rw [caseVariant_cons] at h
    simpa using caseVariant_drop k h.2

theorem DecodeRune_congr_tail {a0 : Nat} {t1 t2 : GoString}
    (h : caseVariant t1 t2 = true) : DecodeRune (a0 :: t1) = DecodeRune (a0 :: t2) := by
  match t1, t2, h with
  | [], [], _ => rfl
  | [], _ :: _, h => simp [caseVariant] at h
  | _ :: _, [], h => simp [caseVariant] at h
  | a1 :: t1, b1 :: t2, h =>
    rw [caseVariant_cons] at h
    have hlen1 := caseVariant_length h.2
    rcases caseEq_eq_or_ascii h.1 with rfl | ⟨h1, h2⟩
    · match t1, t2, h.2 with
      | [], [], _ => rfl
      | [], _ :: _, h => simp [caseVariant] at h
      | _ :: _, [], h => simp [caseVariant] at h
      | a2 :: t1, b2 :: t2, h' =>
        rw [caseVariant_cons] at h'
        have hlen2 := caseVariant_length h'.2
        rcases caseEq_eq_or_ascii h'.1 with rfl | ⟨h1, h2⟩
        · match t1, t2, h'.2 with
          | [], [], _ => rfl
          | [], _ :: _, h => simp [caseVariant] at h
          | _ :: _, [], h => simp [caseVariant] at h
          | a3 :: t1, b3 :: t2, h'' =>
            rw [caseVariant_cons] at h''
            have hlen3 := caseVariant_length h''.2
            rcases caseEq_eq_or_ascii h''.1 with rfl | ⟨h1, h2⟩
            · simp only [DecodeRune, List.length_cons, hlen3]
            · simp only [DecodeRune, List.length_cons, hlen3, h1, h2, true_or, if_true]
        · simp only [DecodeRune, List.length_cons, hlen2, h1, h2, true_or, if_true]
    · have hlo1 : a1 < acceptLo a0 := by have := acceptLo_ge a0; omega
      have hlo2 : b1 < acceptLo a0 := by have := acceptLo_ge a0; omega
      simp only [DecodeRune, List.length_cons, hlen1, hlo1, hlo2, true_or, if_true]

theorem DecodeRune_caseVariant {s1 s2 : GoString} (h : caseVariant s1 s2 = true) :
    (DecodeRune s1).2 = (DecodeRune s2).2 ∧
      caseEq (DecodeRune s1).1 (DecodeRune s2).1 = true := by
  match s1, s2, h with
  | [], [], _ => exact ⟨rfl, caseEq_refl _⟩
  | [], _ :: _, h => simp [caseVariant] at h
  | _ :: _, [], h => simp [caseVariant] at h
  | a0 :: t1, b0 :: t2, h =>
    rw [caseVariant_cons] at h
    rcases caseEq_eq_or_ascii h.1 with rfl | ⟨h1, h2⟩
    · rw [DecodeRune_congr_tail h.2]
      exact ⟨rfl, caseEq_refl _⟩
    · have e1 : DecodeRune (a0 :: t1) = (a0, 1) := by
        simp only [DecodeRune, RuneSelf, h1, if_true]
      have e2 : DecodeRune (b0 :: t2) = (b0, 1) := by
        simp only [DecodeRune, RuneSelf, h2, if_true]
      rw [e1, e2]
      exact ⟨rfl, h.1⟩

theorem mapLoop_caseVariant (f : Nat → Nat)
    (hf : ∀ x y, caseEq x y = true → f x = f y) :
    ∀ (fuel : Nat) (s1 s2 : GoString), caseVariant s1 s2 = true →
      mapLoop f fuel s1 = mapLoop f fuel s2 := by
  intro fuel
  induction fuel with
  | zero => intro s1 s2 _; rfl
  | succ n ih =>
    intro s1 s2 h
    match s1, s2, h with
    | [], [], _ => rfl
    | [], _ :: _, h => simp [caseVariant] at h
    | _ :: _, [], h => simp [caseVariant] at h
    | a :: t1, b :: t2, h =>
      obtain ⟨hw, hr⟩ := DecodeRune_caseVariant h
      simp only [mapLoop]
      rw [hf _ _ hr, hw]
      rw [ih _ _ (caseVariant_drop (DecodeRune (b :: t2)).2 h)]

theorem unicodeToUpper_caseEq (ct : CaseTables) (x y : Nat) (h : caseEq x y = true) :
    unicodeToUpper ct x = unicodeToUpper ct y := by
  rw [caseEq_iff, isASCIILetter_iff, isASCIILetter_iff] at h
  rcases h with rfl | h
  · rfl
  · have hx : x ≤ 0x7F := by omega
    have hy : y ≤ 0x7F := by omega
    simp only [unicodeToUpper, hx, hy, if_true]
    split_ifs <;> omega

theorem unicodeToLower_caseEq (ct : CaseTables) (x y : Nat) (h : caseEq x y = true) :
    unicodeToLower ct x = unicodeToLower ct y := by
  rw [caseEq_iff, isASCIILetter_iff, isASCIILetter_iff] at h
  rcases h with rfl | h
  · rfl
  · have hx : x ≤ 0x7F := by omega
    have hy : y ≤ 0x7F := by omega
    simp only [unicodeToLower, hx, hy, if_true]
    split_ifs <;> omega

theorem caseVariant_all_ascii {s1 s2 : GoString} (h : caseVariant s1 s2 = true) :
    s1.all (fun c => decide (c < RuneSelf)) = s2.all (fun c => decide (c < RuneSelf)) := by
  rw [Bool.eq_iff_iff]
  simpa [List.all_eq_true] using caseVariant_ascii h

theorem caseVariant_map_lowerByte :
    ∀ {xs ys : GoString}, caseVariant xs ys = true → xs.map lowerByte = ys.map lowerByte
  | [], [], _ => rfl
  | [], _ :: _, h => by simp [caseVariant] at h
  | _ :: _, [], h => by simp [caseVariant] at h
  | x :: xs, y :: ys, h => by
    rw [caseVariant_cons] at h
    simp [caseEq_lowerByte h.1, caseVariant_map_lowerByte h.2]

theorem ToUpper_caseVariant (ct : CaseTables) {s1 s2 : GoString}
    (h : caseVariant s1 s2 = true) : ToUpper ct s1 = ToUpper ct s2 := by
  unfold ToUpper
  rw [Map_eq_mapLoop, Map_eq_mapLoop, caseVariant_all_ascii h, caseVariant_map_upperByte h, caseVariant_length h,
    mapLoop_caseVariant _ (unicodeToUpper_caseEq ct) _ _ _ h]

theorem ToLower_caseVariant (ct : CaseTables) {s1 s2 : GoString}
    (h : caseVariant s1 s2 = true) : ToLower ct s1 = ToLower ct s2 := by
  unfold ToLower
  rw [Map_eq_mapLoop, Map_eq_mapLoop, caseVariant_all_ascii h, caseVariant_map_lowerByte h, caseVariant_length h,
    mapLoop_caseVariant _ (unicodeToLower_caseEq ct) _ _ _ h]

theorem beq_caseEq {e a b : Nat} (he : isASCIILetter e = false) (h : caseEq a b = true) :
    (e == a) = (e == b) := by
  rw [caseEq_iff] at h
  rcases h with rfl | ⟨ha, hb, -⟩
  · rfl
  · have h1 : e ≠ a := by rintro rfl; rw [ha] at he; cases he
    have h2 : e ≠ b := by rintro rfl; rw [hb] at he; cases he
    simp [h1, h2]

theorem isPrefixOf_caseVariant :
    ∀ (E : GoString), (∀ x ∈ E, isASCIILetter x = false) → ∀ (s1 s2 : GoString),
      caseVariant s1 s2 = true → E.isPrefixOf s1 = E.isPrefixOf s2
  | [], _, _, _, _ => by simp
  | _ :: _, _, [], [], _ => rfl
  | _ :: _, _, [], _ :: _, h => by simp [caseVariant] at h
  | _ :: _, _, _ :: _, [], h => by simp [caseVariant] at h
  | e :: E, hE, a :: s1, b :: s2, h => by
    rw [caseVariant_cons] at h
    simp only [List.isPrefixOf]
    rw [isPrefixOf_caseVariant E (fun x hx => hE x (List.mem_cons_of_mem _ hx)) s1 s2 h.2,
      beq_caseEq (hE e (List.mem_cons_self _ _)) h.1]

theorem Index_caseVariant (E : GoString) (hE : ∀ x ∈ E, isASCIILetter x = false) :
    ∀ (s1 s2 : GoString), caseVariant s1 s2 = true → Index s1 E = Index s2 E
  | [], [], _ => rfl
  | [], _ :: _, h => by simp [caseVariant] at h
  | _ :: _, [], h => by simp [caseVariant] at h
  | a :: s1, b :: s2, h => by
    rw [Index_cons, Index_cons, isPrefixOf_caseVariant E hE _ _ h,
      Index_caseVariant E hE s1 s2 (caseVariant_cons.mp h).2]

theorem any_Contains_caseVariant {n1 n2 : GoString} (h : caseVariant n1 n2 = true) :
    ∀ (emojis : List GoString), (∀ e ∈ emojis, ∀ x ∈ e, isASCIILetter x = false) →
      emojis.any (fun emoji => Contains n1 emoji) = emojis.any (fun emoji => Contains n2 emoji)
  | [], _ => rfl
  | e :: rest, hE => by
    simp only [List.any_cons, Contains]
    rw [Index_caseVariant e (hE e (List.mem_cons_self _ _)) n1 n2 h]
    have ih := any_Contains_caseVariant h rest (fun e' he' => hE e' (List.mem_cons_of_mem _ he'))
    simp only [Contains] at ih
    rw [ih]

theorem containsCode_caseVariant (ct : CaseTables) {n1 n2 : GoString}
    (h : caseVariant n1 n2 = true) (code : GoString) :
    containsCode ct n1 code = containsCode ct n2 code := by
  unfold containsCode
  rw [ToUpper_caseVariant ct h]

theorem matchCodes_caseVariant (ct : CaseTables) {n1 n2 : GoString}
    (h : caseVariant n1 n2 = true) :
    ∀ (codes : List GoString), matchCodes ct n1 codes = matchCodes ct n2 codes
  | [] => rfl
  | code :: rest => by
    simp only [matchCodes]
    rw [containsCode_caseVariant ct h code, matchCodes_caseVariant ct h rest]

theorem matchRule_caseVariant (ct : CaseTables) {n1 n2 : GoString}
    (h : caseVariant n1 n2 = true) (rule : regionRule)
    (hE : ∀ e ∈ rule.emojis, ∀ x ∈ e, isASCIILetter x = false) :
    matchRule ct n1 (ToLower ct n1) rule = matchRule ct n2 (ToLower ct n2) rule := by
  unfold matchRule
  rw [ToLower_caseVariant ct h, any_Contains_caseVariant h rule.emojis hE,
    matchCodes_caseVariant ct h]

theorem regionLoop_caseVariant (ct : CaseTables) {n1 n2 : GoString}
    (h : caseVariant n1 n2 = true) :
    ∀ (rules : List regionRule),
      (∀ rule ∈ rules, ∀ e ∈ rule.emojis, ∀ x ∈ e, isASCIILetter x = false) →
      regionLoop ct n1 (ToLower ct n1) rules = regionLoop ct n2 (ToLower ct n2) rules
  | [], _ => rfl
  | rule :: rest, hE => by
    simp only [regionLoop]
    rw [matchRule_caseVariant ct h rule (hE rule (List.mem_cons_self _ _)),
      regionLoop_caseVariant ct h rest (fun r hr => hE r (List.mem_cons_of_mem _ hr))]

theorem regionRules_emojis_no_letter :
    ∀ rule ∈ regionRules, ∀ e ∈ rule.emojis, ∀ x ∈ e, isASCIILetter x = false := by
  decide

/-- C8: classification is insensitive to ASCII letter case: two names of equal length
whose bytes are pairwise equal or the same ASCII letter in the two cases get the same
result from `RegionFromName`. -/
theorem RegionFromName_case_insensitive (ct : CaseTables) (n1 n2 : GoString)
    (h : caseVariant n1 n2 = true) : RegionFromName ct n1 = RegionFromName ct n2 := by
  unfold RegionFromName
  have hnil : n1 = [] ↔ n2 = [] := by
    have hlen := caseVariant_length h
    rw [← List.length_eq_zero, ← List.length_eq_zero (l := n2), hlen]
  by_cases h1 : n1 = []
  · rw [if_pos h1, if_pos (hnil.mp h1)]
  · rw [if_neg h1, if_neg (fun h2 => h1 (hnil.mpr h2))]
    exact regionLoop_caseVariant ct h regionRules regionRules_emojis_no_letter

theorem RegionFromName_case_insensitive_witness :
    caseVariant (utf8 "Premium hk 高速") (utf8 "pREMIUM Hk 高速") = true ∧
    RegionFromName CaseTables.trivial (utf8 "Premium hk 高速") =
      RegionFromName CaseTables.trivial (utf8 "pREMIUM Hk 高速") :=
  ⟨by decide, RegionFromName_case_insensitive CaseTables.trivial _ _ (by decide)⟩

/-! ## One iteration of the scan loop -/

theorem containsCodeLoop_step (U C : GoString) (fuel start : Nat) :
    containsCodeLoop U C (fuel + 1) start =
      match scanStep U C start with
      | .ok (Sum.inl b) => .ok b
      | .ok (Sum.inr start') => containsCodeLoop U C fuel start'
      | .error e => .error e := by
  rw [containsCodeLoop]
  unfold scanStep
  simp only [bind, Except.bind, pure, Except.pure]
  cases sliceFrom U start with
  | error e => rfl
  | ok rest =>
    simp only
    cases Index rest C with
    | none => rfl
    | some i =>
      simp only
      by_cases h0 : i + start = 0 <;> by_cases h1 : i + start + C.length ≥ U.length
      · rw [if_pos h0, if_pos h1, if_pos h0, if_pos h1]
        simp
      · rw [if_pos h0, if_neg h1, if_pos h0, if_neg h1]
        cases byteAt U (i + start + C.length) with
        | error e => rfl
        | ok b => cases hb : isASCIILetter b <;> simp [hb]
      · rw [if_neg h0, if_neg h0]
        cases byteAt U (i + start - 1) with
        | error e => rfl
        | ok b =>
          simp only [if_pos h1]
          cases hb : isASCIILetter b <;> simp [hb]
      · rw [if_neg h0, if_neg h0]
        cases byteAt U (i + start - 1) with
        | error e => rfl
        | ok b =>
          simp only [if_neg h1]
          cases byteAt U (i + start + C.length) with
          | error e => rfl
          | ok b' => cases hb : isASCIILetter b <;> cases hb' : isASCIILetter b' <;> simp [hb, hb']

theorem scanStep_none (U C : GoString) (start : Nat) (h1 : start ≤ U.length)
    (hI : Index (U.drop start) C = none) : scanStep U C start = .ok (Sum.inl false) := by
  have hs : sliceFrom U start = .ok (U.drop start) := by simp [sliceFrom, h1]
  unfold scanStep
  simp only [hs, hI, bind, Except.bind, pure, Except.pure]

theorem Index_some_bound {U C : GoString} {start i : Nat} (hC : C ≠ [])
    (hI : Index (U.drop start) C = some i) :
    C <+: U.drop (i + start) ∧ i + start + C.length ≤ U.length := by
  obtain ⟨hp, -⟩ := (Index_eq_some _ _ _).mp hI
  rw [List.drop_drop, Nat.add_comm] at hp
  have hCpos : 0 < C.length := List.length_pos.mpr hC
  have h := hp.length_le
  simp only [List.length_drop] at h
  exact ⟨hp, by omega⟩

theorem scanStep_found (U C : GoString) (start i : Nat) (h1 : start ≤ U.length)
    (hI : Index (U.drop start) C = some i) (hlen : i + start + C.length ≤ U.length) :
    scanStep U C start =
      .ok (if ((decide (i + start = 0) || !isASCIILetter (U.getD (i + start - 1) 0)) &&
              (decide (i + start + C.length ≥ U.length) ||
                !isASCIILetter (U.getD (i + start + C.length) 0))) = true
            then Sum.inl true else Sum.inr (i + start + 1)) := by
  have hs : sliceFrom U start = .ok (U.drop start) := by simp [sliceFrom, h1]
  unfold scanStep
  simp only [hs, hI, bind, Except.bind, pure, Except.pure]
  obtain ⟨idx, hidx⟩ : ∃ idx, idx = i + start := ⟨_, rfl⟩
  rw [← hidx]
  rw [← hidx] at hlen
  have hB : idx ≠ 0 → byteAt U (idx - 1) = .ok (U.getD (idx - 1) 0) := by
    intro h
    have hlt : idx - 1 < U.length := by omega
    rw [byteAt_of_lt hlt, getD_of_lt hlt]
  have hA : ¬ idx + C.length ≥ U.length →
      byteAt U (idx + C.length) = .ok (U.getD (idx + C.length) 0) := by
    intro h
    have hlt : idx + C.length < U.length := by omega
    rw [byteAt_of_lt hlt, getD_of_lt hlt]
  by_cases h0 : idx = 0 <;> by_cases h1 : idx + C.length ≥ U.length
  · rw [if_pos h0, if_pos h1, decide_eq_true h0, decide_eq_true h1]
    simp
  · rw [if_pos h0, if_neg h1, hA h1, decide_eq_true h0, decide_eq_false h1]
    simp
    split_ifs <;> rfl
  · rw [if_neg h0, hB h0, decide_eq_false h0, decide_eq_true h1]
    simp only [if_pos h1]
    simp
    split_ifs <;> rfl
  · rw [if_neg h0, hB h0, decide_eq_false h0, decide_eq_false h1]
    simp only [if_neg h1, hA h1]
    simp
    split_ifs <;> rfl

theorem scanStep_progress (U C : GoString) (hC : C ≠ []) (start : Nat)
    (h1 : start ≤ U.length) :
    (∃ b, scanStep U C start = .ok (Sum.inl b)) ∨
      ∃ start', scanStep U C start = .ok (Sum.inr start') ∧ start < start' ∧
        start' ≤ U.length := by
  cases hI : Index (U.drop start) C with
  | none => exact Or.inl ⟨false, scanStep_none U C start h1 hI⟩
  | some i =>
    have hlen := (Index_some_bound hC hI).2
    have hCpos : 0 < C.length := List.length_pos.mpr hC
    rw [scanStep_found U C start i h1 hI hlen]
    split_ifs
    · exact Or.inl ⟨true, rfl⟩
    · exact Or.inr ⟨i + start + 1, rfl, by omega, by omega⟩

/-- C16: for every name and every non-empty code the scan loop of `containsCode`
terminates: from a search offset `start <= len(nameUpper)` an iteration (`scanStep`, the
body of the loop) returns, or goes on with a strictly larger `start` that is still at
most `len(nameUpper)`; a candidate offset `idx` has `idx - 1` (when `idx > 0`) inside the
upper-cased name and `idx + len(codeUpper)` at most its length, where the byte is read
only below the length; and `containsCode` returns a boolean. -/
theorem containsCode_scan_terminates (ct : CaseTables) (name code : GoString)
    (hcode : code ≠ []) :
    (∀ fuel start, containsCodeLoop (ToUpper ct name) (ToUpper ct code) (fuel + 1) start =
      match scanStep (ToUpper ct name) (ToUpper ct code) start with
      | .ok (Sum.inl b) => .ok b
      | .ok (Sum.inr start') =>
        containsCodeLoop (ToUpper ct name) (ToUpper ct code) fuel start'
      | .error e => .error e) ∧
    (∀ start, start ≤ (ToUpper ct name).length →
      (∃ b, scanStep (ToUpper ct name) (ToUpper ct code) start = .ok (Sum.inl b)) ∨
      ∃ start', scanStep (ToUpper ct name) (ToUpper ct code) start = .ok (Sum.inr start') ∧
        start < start' ∧ start' ≤ (ToUpper ct name).length) ∧
    (∀ start i, Index ((ToUpper ct name).drop start) (ToUpper ct code) = some i →
      (i + start ≠ 0 → i + start - 1 < (ToUpper ct name).length) ∧
      i + start + (ToUpper ct code).length ≤ (ToUpper ct name).length) ∧
    (∃ b, containsCode ct name code = .ok b) := by
  have hC := ToUpper_ne_nil ct hcode
  refine ⟨containsCodeLoop_step _ _, scanStep_progress _ _ hC, ?_, ?_⟩
  · intro start i hI
    have h := (Index_some_bound hC hI).2
    have hCpos : 0 < (ToUpper ct code).length := List.length_pos.mpr hC
    exact ⟨fun _ => by omega, h⟩
  · obtain ⟨b, hb, -⟩ := containsCode_spec ct name code hcode
    exact ⟨b, hb⟩

theorem containsCode_scan_terminates_witness :
    ∃ b, containsCode CaseTables.excerpt (utf8 "THKU-HK") (utf8 "HK") = .ok b :=
  (containsCode_scan_terminates CaseTables.excerpt (utf8 "THKU-HK") (utf8 "HK")
    (by decide)).2.2.2

/-! ## The empty code -/

theorem Index_nil_right (s : GoString) : Index s [] = some 0 := by
  unfold Index
  simp

theorem containsCodeLoop_empty_code (U : GoString) :
    ∀ (fuel start : Nat), start ≤ U.length + 1 → U.length + 2 ≤ fuel + start →
      containsCodeLoop U [] fuel start = .ok true ∨
        containsCodeLoop U [] fuel start = .error Panic.sliceBounds := by
  intro fuel
  induction fuel with
  | zero => intro start h1 h2; omega
  | succ n ih =>
    intro start h1 h2
    rw [containsCodeLoop_step]
    by_cases hle : start ≤ U.length
    · rw [scanStep_found U [] start 0 hle (Index_nil_right _) (by simpa using hle)]
      split_ifs
      · exact Or.inl rfl
      · simpa using ih (start + 1) (by omega) (by omega)
    · right
      have hs : scanStep U [] start = .error Panic.sliceBounds := by
        unfold scanStep
        simp [sliceFrom, hle, bind, Except.bind]
      rw [hs]

/-- With the empty code `containsCode` never returns false: it returns true or panics on
the slice `nameUpper[start:]`. -/
theorem containsCode_empty_code (ct : CaseTables) (name : GoString) :
    containsCode ct name [] = .ok true ∨
      containsCode ct name [] = .error Panic.sliceBounds := by
  unfold containsCode
  simp only [ToUpper_nil]
  exact containsCodeLoop_empty_code _ _ 0 (by omega) (by omega)

/-- For the name "A" and the empty code the third iteration slices `nameUpper[2:]` with
`len(nameUpper) == 1`, which panics; on "US-01" and on the empty name the empty code is
found at offset 0 between boundaries. -/
theorem containsCode_empty_code_panics (ct : CaseTables) :
    containsCode ct (utf8 "A") (utf8 "") = .error Panic.sliceBounds ∧
    containsCode ct (utf8 "US-01") (utf8 "") = .ok true ∧
    containsCode ct (utf8 "") (utf8 "") = .ok true :=
  ⟨rfl, rfl, rfl⟩

/-- C17, counterexample: `containsCode` does not return for every pair of strings: for
the name "A" and the empty code the third iteration slices `nameUpper[2:]` with
`len(nameUpper) == 1`, which panics, whatever the case tables. -/
theorem containsCode_empty_code_counterexample :
    ¬ ∃ ct : CaseTables, ∀ name code : GoString, ∃ b, containsCode ct name code = .ok b := by
  rintro ⟨ct, h⟩
  obtain ⟨b, hb⟩ := h (utf8 "A") (utf8 "")
  have h2 : containsCode ct (utf8 "A") (utf8 "") = .error Panic.sliceBounds := rfl
  rw [h2] at hb
  cases hb

/-- C17, amended: `containsCode` is total over all names and all non-empty codes: it
returns a boolean, false exactly when no occurrence of the upper-cased code in the
upper-cased name satisfies both boundary tests, and no iteration of its loop slices or
indexes past the end of the upper-cased name. -/
theorem containsCode_total_for_nonempty_code (ct : CaseTables) (name code : GoString)
    (hcode : code ≠ []) :
    (∃ b, containsCode ct name code = .ok b) ∧
    (containsCode ct name code = .ok false ↔
      ¬ ∃ idx, wordAt (ToUpper ct name) (ToUpper ct code) idx) ∧
    (∀ start, start ≤ (ToUpper ct name).length →
      ∃ r, scanStep (ToUpper ct name) (ToUpper ct code) start = .ok r) := by
  refine ⟨?_, (containsCode_cases ct name code hcode).2, ?_⟩
  · obtain ⟨b, hb, -⟩ := containsCode_spec ct name code hcode
    exact ⟨b, hb⟩
  · intro start hstart
    rcases scanStep_progress _ _ (ToUpper_ne_nil ct hcode) start hstart with
      ⟨b, hb⟩ | ⟨s', hs', -, -⟩
    · exact ⟨_, hb⟩
    · exact ⟨_, hs'⟩

theorem containsCode_total_for_nonempty_code_witness :
    utf8 "US" ≠ [] ∧
    ∃ b, containsCode CaseTables.excerpt (utf8 "THRUST") (utf8 "US") = .ok b :=
  ⟨by decide,
    (containsCode_total_for_nonempty_code CaseTables.excerpt (utf8 "THRUST") (utf8 "US")
      (by decide)).1⟩

/-- C12, counterexample: for a rule whose codes are "" and "A", and the name "A", the
code "A" is contained in the name, and `matchRule` does not return true: it panics in
`containsCode` on the empty code before reaching "A", whatever the case tables. -/
theorem matchRule_empty_code_counterexample :
    ¬ ∃ ct : CaseTables, ∀ (name nameLower : GoString) (rule : regionRule),
        (matchRule ct name nameLower rule = .ok true ↔
          (∃ emoji ∈ rule.emojis, emoji <:+: name) ∨
          (∃ kw ∈ rule.names, kw <:+: nameLower) ∨
          (∃ code ∈ rule.codes, containsCode ct name code = .ok true)) := by
  rintro ⟨ct, h⟩
  have h1 := (h (utf8 "A") (utf8 "a")
    { region := RegionOther, emojis := [], names := [], codes := [utf8 "", utf8 "A"] }).mpr
    (Or.inr (Or.inr ⟨utf8 "A", List.mem_cons_of_mem _ (List.mem_singleton.mpr rfl), rfl⟩))
  have h2 : matchRule ct (utf8 "A") (utf8 "a")
      { region := RegionOther, emojis := [], names := [], codes := [utf8 "", utf8 "A"] } =
        .error Panic.sliceBounds := rfl
  rw [h2] at h1
  cases h1

/-- C12, amended: for every name, nameLower and rule whose codes are all non-empty,
`matchRule(name, nameLower, rule)` returns, and it is true if and only if some emoji of
the rule is a substring of name, or some keyword of the rule is a substring of nameLower,
or `containsCode(name, code)` is true for some code of the rule; a rule with all three
lists empty matches nothing. -/
theorem matchRule_iff_some_pattern (ct : CaseTables) (name nameLower : GoString)
    (rule : regionRule) (hcodes : ∀ code ∈ rule.codes, code ≠ []) :
    (matchRule ct name nameLower rule = .ok true ↔
      (∃ emoji ∈ rule.emojis, emoji <:+: name) ∨
      (∃ kw ∈ rule.names, kw <:+: nameLower) ∨
      (∃ code ∈ rule.codes, containsCode ct name code = .ok true)) ∧
    (matchRule ct name nameLower rule = .ok false ↔
      ¬ ((∃ emoji ∈ rule.emojis, emoji <:+: name) ∨
        (∃ kw ∈ rule.names, kw <:+: nameLower) ∨
        (∃ code ∈ rule.codes, containsCode ct name code = .ok true))) ∧
    matchRule ct name nameLower
      { region := rule.region, emojis := [], names := [], codes := [] } = .ok false := by
  obtain ⟨b, hb, hiff⟩ := matchRule_spec ct name nameLower rule hcodes
  refine ⟨?_, ?_, rfl⟩
  · rw [hb, ← hiff]
    cases b <;> simp
  · rw [hb, ← hiff]
    cases b <;> simp

theorem matchRule_iff_some_pattern_witness :
    (matchRule CaseTables.excerpt (utf8 "Premium HK 高速") (utf8 "premium hk 高速")
        { region := RegionHK, emojis := [utf8 "🇭🇰"],
          names := ["香港", "hong kong", "hongkong"].map utf8, codes := [utf8 "HK"] } =
      .ok true ↔
      (∃ emoji ∈ [utf8 "🇭🇰"], emoji <:+: utf8 "Premium HK 高速") ∨
      (∃ kw ∈ ["香港", "hong kong", "hongkong"].map utf8, kw <:+: utf8 "premium hk 高速") ∨
      (∃ code ∈ [utf8 "HK"],
        containsCode CaseTables.excerpt (utf8 "Premium HK 高速") code = .ok true)) :=
  (matchRule_iff_some_pattern CaseTables.excerpt (utf8 "Premium HK 高速")
    (utf8 "premium hk 高速")
    { region := RegionHK, emojis := [utf8 "🇭🇰"],
      names := ["香港", "hong kong", "hongkong"].map utf8, codes := [utf8 "HK"] }
    (by decide)).1

/-! ## Resuming after a failed candidate -/

theorem getElem?_of_prefix_drop {U C : GoString} {idx k : Nat} (hp : C <+: U.drop idx)
    (hk : k < C.length) : U[idx + k]? = some C[k] := by
  obtain ⟨q, hq⟩ := hp
  rw [← List.getElem?_drop, ← hq, List.getElem?_append_left hk, List.getElem?_eq_getElem hk]

theorem not_wordAt_inside {U C : GoString} {idx idx' : Nat} (hp : C <+: U.drop idx)
    (hl : ∀ x ∈ C, isASCIILetter x = true) (h1 : idx < idx') (h2 : idx' < idx + C.length) :
    ¬ wordAt U C idx' := by
  rintro ⟨-, hB, -⟩
  rcases hB with h0 | ⟨b, hb, hbl⟩
  · omega
  · have hk : idx' - 1 - idx < C.length := by omega
    have e : idx + (idx' - 1 - idx) = idx' - 1 := by omega
    have h := getElem?_of_prefix_drop hp hk
    rw [e, hb] at h
    have hb' : b = C[idx' - 1 - idx] := Option.some.inj h
    have hlet := hl _ (List.getElem_mem hk)
    rw [← hb', hbl] at hlet
    cases hlet

theorem containsCodeLoopSkip_spec (U C : GoString) (hC : C ≠ [])
    (hl : ∀ x ∈ C, isASCIILetter x = true) :
    ∀ (fuel start : Nat), start ≤ U.length → U.length + 2 ≤ fuel + start →
      ∃ b, containsCodeLoopSkip U C fuel start = .ok b ∧
        (b = true ↔ ∃ idx, start ≤ idx ∧ wordAt U C idx) := by
  intro fuel
  induction fuel with
  | zero => intro start h1 h2; omega
  | succ n ih =>
    intro start h1 h2
    have hs : sliceFrom U start = .ok (U.drop start) := by simp [sliceFrom, h1]
    cases hI : Index (U.drop start) C with
    | none =>
      refine ⟨false, ?_, ?_⟩
      · simp [containsCodeLoopSkip, hs, hI, bind, Except.bind, pure, Except.pure]
      · simp only [Bool.false_eq_true, false_iff, not_exists, not_and]
        intro idx hle hw
        have h := (Index_eq_none _ _).mp hI (idx - start)
        rw [List.drop_drop] at h
        have e : start + (idx - start) = idx := by omega
        rw [e] at h
        exact h hw.1
    | some i =>
      obtain ⟨-, hmin⟩ := (Index_eq_some _ _ _).mp hI
      obtain ⟨hp, hlen⟩ := Index_some_bound hC hI
      have hCpos : 0 < C.length := List.length_pos.mpr hC
      have hunf : containsCodeLoopSkip U C (n + 1) start =
          (if ((decide (i + start = 0) || !isASCIILetter (U.getD (i + start - 1) 0)) &&
              (decide (i + start + C.length ≥ U.length) ||
                !isASCIILetter (U.getD (i + start + C.length) 0))) = true
            then .ok true else containsCodeLoopSkip U C n (i + start + C.length)) := by
        rw [containsCodeLoopSkip]
        simp only [hs, hI, bind, Except.bind, pure, Except.pure]
        obtain ⟨idx, hidx⟩ : ∃ idx, idx = i + start := ⟨_, rfl⟩
        rw [← hidx]
        rw [← hidx] at hlen
        have hB : idx ≠ 0 → byteAt U (idx - 1) = .ok (U.getD (idx - 1) 0) := by
          intro h
          have hlt : idx - 1 < U.length := by omega
          rw [byteAt_of_lt hlt, getD_of_lt hlt]
        have hA : ¬ idx + C.length ≥ U.length →
            byteAt U (idx + C.length) = .ok (U.getD (idx + C.length) 0) := by
          intro h
          have hlt : idx + C.length < U.length := by omega
          rw [byteAt_of_lt hlt, getD_of_lt hlt]
        by_cases h0 : idx = 0 <;> by_cases h1 : idx + C.length ≥ U.length
        · rw [if_pos h0, if_pos h1, decide_eq_true h0, decide_eq_true h1]
          simp
        · rw [if_pos h0, if_neg h1, hA h1, decide_eq_true h0, decide_eq_false h1]
          simp
        · rw [if_neg h0, hB h0, decide_eq_false h0, decide_eq_true h1]
          simp only [if_pos h1]
          simp
        · rw [if_neg h0, hB h0, decide_eq_false h0, decide_eq_false h1]
          simp only [if_neg h1, hA h1]
          simp
      have hchk := wordAt_iff_check hp (by omega)
      by_cases hW : ((decide (i + start = 0) || !isASCIILetter (U.getD (i + start - 1) 0)) &&
              (decide (i + start + C.length ≥ U.length) ||
                !isASCIILetter (U.getD (i + start + C.length) 0))) = true
      · refine ⟨true, ?_, ?_⟩
        · rw [hunf, if_pos hW]
        · simp only [true_iff]
          exact ⟨i + start, by omega, hchk.mpr hW⟩
      · obtain ⟨b, hb, hiff⟩ := ih (i + start + C.length) (by omega) (by omega)
        refine ⟨b, ?_, ?_⟩
        · rw [hunf, if_neg hW]; exact hb
        · rw [hiff]
          constructor
          · rintro ⟨idx, hle, hw⟩
            exact ⟨idx, by omega, hw⟩
          · rintro ⟨idx, hle, hw⟩
            refine ⟨idx, ?_, hw⟩
            by_contra hcon
            have hlt : idx < i + start + C.length := by omega
            rcases Nat.lt_or_ge (idx - start) i with hlt2 | hge2
            · have h := hmin (idx - start) hlt2
              rw [List.drop_drop] at h
              have e : start + (idx - start) = idx := by omega
              rw [e] at h
              exact h hw.1
            · rcases Nat.eq_or_lt_of_le (show i + start ≤ idx by omega) with e | hgt
              · rw [← e] at hw
                exact hW (hchk.mp hw)
              · exact not_wordAt_inside hp hl hgt hlt hw

/-- C19: for every name and every non-empty code made only of ASCII letters,
`containsCode` returns the same result as the variant of the scan that resumes at
`idx + len(codeUpper)` instead of `idx + 1` after a candidate fails its boundary check. -/
theorem containsCode_skip_candidate_equiv (ct : CaseTables) (name code : GoString) (hcode : code ≠ [])
    (hletters : ∀ b ∈ code, isASCIILetter b = true) :
    containsCodeSkip ct name code = containsCode ct name code := by
  have hU : ToUpper ct code = code.map upperByte :=
    ToUpper_ascii ct (fun b hb => lt_RuneSelf_of_letter (hletters b hb))
  have hne : ToUpper ct code ≠ [] := ToUpper_ne_nil ct hcode
  have hl : ∀ x ∈ ToUpper ct code, isASCIILetter x = true := by
    rw [hU]
    intro x hx
    obtain ⟨y, hy, rfl⟩ := List.mem_map.mp hx
    rw [isASCIILetter_upperByte]
    exact hletters y hy
  obtain ⟨b1, hb1, hiff1⟩ := containsCodeLoopSkip_spec (ToUpper ct name) (ToUpper ct code) hne hl
    ((ToUpper ct name).length + 2) 0 (Nat.zero_le _) (by omega)
  obtain ⟨b2, hb2, hiff2⟩ := containsCodeLoop_spec (ToUpper ct name) (ToUpper ct code) hne
    ((ToUpper ct name).length + 2) 0 (Nat.zero_le _) (by omega)
  have hb : b1 = b2 := by
    rw [Bool.eq_iff_iff, hiff1, hiff2]
  unfold containsCodeSkip containsCode
  simp only
  rw [hb1, hb2, hb]

theorem containsCode_skip_candidate_equiv_witness :
    containsCodeSkip CaseTables.excerpt (utf8 "THKU-HK") (utf8 "HK") =
      containsCode CaseTables.excerpt (utf8 "THKU-HK") (utf8 "HK") :=
  containsCode_skip_candidate_equiv CaseTables.excerpt (utf8 "THKU-HK") (utf8 "HK")
    (by decide) (by decide)

/-- The two scans differ on a code that is not made of letters: "--" is found in "a---"
at offset 2 by `containsCode` and missed by the variant, which resumes at offset 3. -/
theorem containsCodeSkip_differs_without_letters (ct : CaseTables) :
    containsCode ct (utf8 "a---") (utf8 "--") = .ok true ∧
    containsCodeSkip ct (utf8 "a---") (utf8 "--") = .ok false :=
  ⟨rfl, rfl⟩

/-! ## Names made of ASCII bytes and uncased runes -/

theorem mapLoop_of_plainText (f bf : Nat → Nat)
    (hA : ∀ b, b < RuneSelf → EncodeRune (f b) = [bf b])
    (hU : ∀ r, uncasedRune r = true → f r = r) (hB : ∀ x, RuneSelf ≤ x → bf x = x) :
    ∀ (fuel : Nat) (s : GoString), plainText fuel s = true → mapLoop f fuel s = s.map bf := by
  intro fuel
  induction fuel with
  | zero =>
    intro s h
    cases s with
    | nil => rfl
    | cons b t => simp [plainText] at h
  | succ n ih =>
    intro s h
    match s, h with
    | [], _ => rfl
    | b :: t, h =>
      by_cases hb : b < RuneSelf
      · have e : DecodeRune (b :: t) = (b, 1) := by simp only [DecodeRune, hb, if_true]
        simp only [plainText, hb, if_true] at h
        simp only [mapLoop, e, List.drop_succ_cons, List.drop_zero, List.map_cons]
        rw [hA b hb, ih t h]
        rfl
      · simp only [plainText, hb, if_false, Bool.and_eq_true, List.all_eq_true,
          decide_eq_true_eq] at h
        obtain ⟨⟨hu, hall⟩, hrest⟩ := h
        simp only [mapLoop]
        rw [hU _ hu, ih _ hrest]
        rcases EncodeRune_DecodeRune b t with hbad | hgood
        · rw [hbad] at hu
          exact absurd hu (by decide)
        · rw [hgood]
          have hm : ((b :: t).take (DecodeRune (b :: t)).2).map bf =
              (b :: t).take (DecodeRune (b :: t)).2 := by
            conv => rhs; rw [← List.map_id ((b :: t).take (DecodeRune (b :: t)).2)]
            apply List.map_congr_left
            intro x hx
            exact hB x (hall x hx)
          conv => rhs; rw [← List.take_append_drop (DecodeRune (b :: t)).2 (b :: t)]
          rw [List.map_append, hm]

theorem uncasedRune_gt {r : Nat} (h : uncasedRune r = true) : ¬ r ≤ 0x7F := by
  simp only [uncasedRune, Bool.or_eq_true, Bool.and_eq_true, decide_eq_true_eq] at h
  omega

theorem EncodeRune_ascii {r : Nat} (h : r ≤ 0x7F) : EncodeRune r = [r] := by
  unfold EncodeRune
  rw [if_pos h]

theorem upperByte_of_ge {x : Nat} (h : RuneSelf ≤ x) : upperByte x = x := by
  unfold RuneSelf at h
  unfold upperByte
  split_ifs <;> omega

theorem lowerByte_of_ge {x : Nat} (h : RuneSelf ≤ x) : lowerByte x = x := by
  unfold RuneSelf at h
  unfold lowerByte
  split_ifs <;> omega

theorem ToUpper_of_plainText (ct : CaseTables) (hct : ct.fixesUncased) (s : GoString)
    (h : plainText s.length s = true) : ToUpper ct s = s.map upperByte := by
  unfold ToUpper
  split_ifs
  · rfl
  · rw [Map_eq_mapLoop]
    refine mapLoop_of_plainText (unicodeToUpper ct) upperByte ?_ ?_ ?_ s.length s h
    · intro b hb
      unfold RuneSelf at hb
      have hb' : b ≤ 0x7F := by omega
      have e : unicodeToUpper ct b = upperByte b := by
        simp only [unicodeToUpper, upperByte, hb', if_true]
      rw [e]
      apply EncodeRune_ascii
      unfold upperByte
      split_ifs <;> omega
    · intro r hr
      simp only [unicodeToUpper, uncasedRune_gt hr, if_false]
      exact (hct r hr).1
    · intro x hx
      exact upperByte_of_ge hx

theorem ToLower_of_plainText (ct : CaseTables) (hct : ct.fixesUncased) (s : GoString)
    (h : plainText s.length s = true) : ToLower ct s = s.map lowerByte := by
  unfold ToLower
  split_ifs
  · rfl
  · rw [Map_eq_mapLoop]
    refine mapLoop_of_plainText (unicodeToLower ct) lowerByte ?_ ?_ ?_ s.length s h
    · intro b hb
      unfold RuneSelf at hb
      have hb' : b ≤ 0x7F := by omega
      have e : unicodeToLower ct b = lowerByte b := by
        simp only [unicodeToLower, lowerByte, hb', if_true]
      rw [e]
      apply EncodeRune_ascii
      unfold lowerByte
      split_ifs <;> omega
    · intro r hr
      simp only [unicodeToLower, uncasedRune_gt hr, if_false]
      exact (hct r hr).2
    · intro x hx
      exact lowerByte_of_ge hx

theorem matchCodes_congr (ct ct' : CaseTables) (name : GoString)
    (hU : ToUpper ct name = ToUpper ct' name) :
    ∀ (codes : List GoString), (∀ code ∈ codes, ToUpper ct code = ToUpper ct' code) →
      matchCodes ct name codes = matchCodes ct' name codes
  | [], _ => rfl
  | code :: rest, h => by
    have e : containsCode ct name code = containsCode ct' name code := by
      unfold containsCode
      rw [hU, h code (List.mem_cons_self _ _)]
    simp only [matchCodes]
    rw [e, matchCodes_congr ct ct' name hU rest (fun c hc => h c (List.mem_cons_of_mem _ hc))]

theorem regionLoop_congr (ct ct' : CaseTables) (name nameLower : GoString)
    (hU : ToUpper ct name = ToUpper ct' name) :
    ∀ (rules : List regionRule),
      (∀ rule ∈ rules, ∀ code ∈ rule.codes, ToUpper ct code = ToUpper ct' code) →
      regionLoop ct name nameLower rules = regionLoop ct' name nameLower rules
  | [], _ => rfl
  | rule :: rest, h => by
    have e : matchRule ct name nameLower rule = matchRule ct' name nameLower rule := by
      unfold matchRule
      rw [matchCodes_congr ct ct' name hU rule.codes (h rule (List.mem_cons_self _ _))]
    simp only [regionLoop]
    rw [e, regionLoop_congr ct ct' name nameLower hU rest
      (fun r hr => h r (List.mem_cons_of_mem _ hr))]

theorem RegionFromName_congr (ct ct' : CaseTables) (name : GoString)
    (hU : ToUpper ct name = ToUpper ct' name) (hL : ToLower ct name = ToLower ct' name) :
    RegionFromName ct name = RegionFromName ct' name := by
  unfold RegionFromName
  rw [hL]
  split_ifs
  · rfl
  · refine regionLoop_congr ct ct' name _ hU regionRules ?_
    intro rule hr code hc
    rw [ToUpper_table_code ct hr hc, ToUpper_table_code ct' hr hc]

theorem fixesUncased_trivial : CaseTables.trivial.fixesUncased := fun _ _ => ⟨rfl, rfl⟩

theorem fixesUncased_excerpt : CaseTables.excerpt.fixesUncased := by
  intro r hr
  simp only [uncasedRune, Bool.or_eq_true, Bool.and_eq_true, decide_eq_true_eq] at hr
  have h1 : r ≠ 0x131 := by omega
  have h2 : r ≠ 0x17F := by omega
  have h3 : r ≠ 0x212A := by omega
  simp [CaseTables.excerpt, h1, h2, h3]

theorem RegionFromName_of_plainText (ct : CaseTables) (hct : ct.fixesUncased) (name : GoString)
    (h : plainText name.length name = true) :
    RegionFromName ct name = RegionFromName CaseTables.trivial name := by
  apply RegionFromName_congr
  · rw [ToUpper_of_plainText ct hct name h,
      ToUpper_of_plainText CaseTables.trivial fixesUncased_trivial name h]
  · rw [ToLower_of_plainText ct hct name h,
      ToLower_of_plainText CaseTables.trivial fixesUncased_trivial name h]

theorem RegionFromName_indonesia (ct : CaseTables) (hct : ct.fixesUncased) :
    RegionFromName ct (utf8 "印度尼西亚01") = .ok RegionIN := by
  rw [RegionFromName_of_plainText ct hct _ (by decide)]
  rfl

/-- C11, failing input: the name "印度尼西亚01" contains "印度尼西亚" and is classified
as India: no rule of the table has the keyword "印度尼西亚", and the IN rule matches on
its keyword "印度". -/
theorem indonesia_classified_as_india :
    RegionFromName CaseTables.excerpt (utf8 "印度尼西亚01") = .ok RegionIN ∧
    utf8 "印度尼西亚" <:+: utf8 "印度尼西亚01" ∧
    (∀ rule ∈ regionRules, utf8 "印度尼西亚" ∉ rule.names) ∧
    regionRules.map (matchRule CaseTables.excerpt (utf8 "印度尼西亚01")
        (ToLower CaseTables.excerpt (utf8 "印度尼西亚01"))) =
      List.replicate 13 (.ok false) ++ [.ok true] ++ List.replicate 3 (.ok false) :=
  ⟨rfl, ⟨[], utf8 "01", by decide⟩, by decide, rfl⟩

theorem containsCode_eq_ASCII_of_plainText (ct : CaseTables) (hct : ct.fixesUncased)
    (name code : GoString) (hn : plainText name.length name = true)
    (hc : plainText code.length code = true) :
    containsCode ct name code = containsCodeASCII name code := by
  unfold containsCode containsCodeASCII
  rw [ToUpper_of_plainText ct hct name hn, ToUpper_of_plainText ct hct code hc]

/-- C13, failing input: with U+0131 upper-cased to "I" and U+017F to "S", as Go's
`unicode.ToUpper` does, `containsCode` and the scan with ASCII-only normalization differ:
"HK" after U+0131 is rejected by the code and accepted by the ASCII-only scan, and
U+017F followed by "G" is taken for the code "SG" by the code only. -/
theorem containsCode_not_ascii_only :
    utf8 "HK" ∈ (regionRules.map (fun rule => rule.codes)).flatten ∧
    utf8 "SG" ∈ (regionRules.map (fun rule => rule.codes)).flatten ∧
    containsCode CaseTables.excerpt (utf8 "ıHK") (utf8 "HK") = .ok false ∧
    containsCodeASCII (utf8 "ıHK") (utf8 "HK") = .ok true ∧
    containsCode CaseTables.excerpt (utf8 "ſG-01") (utf8 "SG") = .ok true ∧
    containsCodeASCII (utf8 "ſG-01") (utf8 "SG") = .ok false ∧
    RegionFromName CaseTables.excerpt (utf8 "ſG-01") = .ok RegionSG :=
  ⟨by decide, by decide, rfl, rfl, rfl, rfl, rfl⟩

/-! ## The rule table -/

theorem regionRules_patterns_plain :
    ∀ rule ∈ regionRules,
      ∀ p ∈ rule.emojis ++ rule.names ++ rule.codes ++ rule.codes.map (List.map lowerByte),
        plainText p.length p = true := by
  decide

set_option maxHeartbeats 4000000 in
theorem regionRules_patterns_own_region :
    ∀ rule ∈ regionRules,
      ∀ p ∈ rule.emojis ++ rule.names ++ rule.codes ++ rule.codes.map (List.map lowerByte),
        RegionFromName CaseTables.trivial p = .ok rule.region := by
  intro rule hr
  simp only [regionRules, List.mem_cons, List.mem_singleton, List.not_mem_nil, or_false] at hr
  rcases hr with rfl | rfl | rfl | rfl | rfl | rfl | rfl | rfl | rfl | rfl | rfl | rfl | rfl |
    rfl | rfl | rfl | rfl
  all_goals decide!

theorem RegionFromName_pattern (ct : CaseTables) (hct : ct.fixesUncased) {rule : regionRule}
    (hr : rule ∈ regionRules) {p : GoString}
    (hp : p ∈ rule.emojis ++ rule.names ++ rule.codes ++ rule.codes.map (List.map lowerByte)) :
    RegionFromName ct p = .ok rule.region := by
  rw [RegionFromName_of_plainText ct hct p (regionRules_patterns_plain rule hr p hp)]
  exact regionRules_patterns_own_region rule hr p hp

/-- C18: every pattern of the rule table classifies to its own region: for every rule of
`regionRules` with region R, `RegionFromName` gives R on each of its emoji strings, on
each of its keywords, and on each of its codes in upper and in lower case; the case
tables are any that leave CJK ideographs and regional indicator symbols unchanged. -/
theorem every_pattern_classifies_to_own_region (ct : CaseTables) (hct : ct.fixesUncased) :
    ∀ rule ∈ regionRules,
      (∀ E ∈ rule.emojis, RegionFromName ct E = .ok rule.region) ∧
      (∀ K ∈ rule.names, RegionFromName ct K = .ok rule.region) ∧
      (∀ C ∈ rule.codes, RegionFromName ct C = .ok rule.region ∧
        RegionFromName ct (ToLower ct C) = .ok rule.region) := by
  intro rule hr
  refine ⟨?_, ?_, ?_⟩
  · intro E hE
    exact RegionFromName_pattern ct hct hr (by simp [hE])
  · intro K hK
    exact RegionFromName_pattern ct hct hr (by simp [hK])
  · intro C hC
    refine ⟨RegionFromName_pattern ct hct hr (by simp [hC]), ?_⟩
    have hA := (regionRules_codes_upper rule hr C hC).1
    rw [ToLower_ascii ct (by simpa [List.all_eq_true] using hA)]
    exact RegionFromName_pattern ct hct hr
      (List.mem_append_right _ (List.mem_map_of_mem _ hC))

theorem every_pattern_classifies_to_own_region_witness :
    CaseTables.excerpt.fixesUncased ∧
    RegionFromName CaseTables.excerpt (utf8 "悉尼") = .ok RegionAU :=
  ⟨fixesUncased_excerpt,
    ((every_pattern_classifies_to_own_region CaseTables.excerpt fixesUncased_excerpt _
      (@List.getElem?_mem _ regionRules 11 _ rfl)).2.1 (utf8 "悉尼") (by decide))⟩

theorem regionRules_india_rule :
    ∀ rule ∈ regionRules, rule.region = RegionIN →
      rule.emojis = [utf8 "🇮🇳"] ∧ rule.names = ["印度", "孟买", "india", "mumbai"].map utf8 ∧
        rule.codes = [] := by
  decide

/-- C14: India has no short code: whenever `RegionFromName(name)` is `RegionIN`, the name
contains the emoji "🇮🇳" or `ToLower(name)` contains one of the keywords "印度", "孟买",
"india", "mumbai"; and "IN-01" is classified as OTHER. -/
theorem india_only_by_emoji_or_keyword (ct : CaseTables) (name : GoString)
    (h : RegionFromName ct name = .ok RegionIN) :
    (utf8 "🇮🇳" <:+: name ∨
      ∃ kw ∈ ["印度", "孟买", "india", "mumbai"].map utf8, kw <:+: ToLower ct name) ∧
    RegionFromName ct (utf8 "IN-01") = .ok RegionOther := by
  refine ⟨?_, rfl⟩
  rw [RegionFromName_eq] at h
  by_cases hn : name = []
  · rw [if_pos hn] at h
    cases h
  · rw [if_neg hn] at h
    cases hf : regionRules.find?
        (fun rule => decide (matchRule ct name (ToLower ct name) rule = .ok true)) with
    | none =>
      rw [hf] at h
      cases h
    | some rule =>
      rw [hf] at h
      have hmem := List.mem_of_find?_eq_some hf
      have hp := List.find?_some hf
      have hreg : rule.region = RegionIN := Except.ok.inj h
      obtain ⟨hE, hK, hC⟩ := regionRules_india_rule rule hmem hreg
      obtain ⟨b, hb, hiff⟩ := matchRule_spec ct name (ToLower ct name) rule
        (regionRules_codes_ne_nil rule hmem)
      have hm : matchRule ct name (ToLower ct name) rule = .ok true := by simpa using hp
      rw [hm] at hb
      have hbt : b = true := (Except.ok.inj hb).symm
      rcases hiff.mp hbt with ⟨e, he, hin⟩ | ⟨kw, hkw, hin⟩ | ⟨c, hc, -⟩
      · rw [hE, List.mem_singleton] at he
        rw [he] at hin
        exact Or.inl hin
      · rw [hK] at hkw
        exact Or.inr ⟨kw, hkw, hin⟩
      · rw [hC] at hc
        cases hc

theorem india_only_by_emoji_or_keyword_witness :
    (utf8 "🇮🇳" <:+: utf8 "india mumbai" ∨
      ∃ kw ∈ ["印度", "孟买", "india", "mumbai"].map utf8,
        kw <:+: ToLower CaseTables.excerpt (utf8 "india mumbai")) ∧
    RegionFromName CaseTables.excerpt (utf8 "IN-01") = .ok RegionOther :=
  india_only_by_emoji_or_keyword CaseTables.excerpt (utf8 "india mumbai") rfl

theorem regionRules_codes_shape :
    ∀ rule ∈ regionRules, ∀ code ∈ rule.codes,
      (code.length = 2 ∨ code.length = 3) ∧ ∀ b ∈ code, isASCIILetter b = true := by
  decide

theorem regionRules_names_lower :
    ∀ rule ∈ regionRules, ∀ kw ∈ rule.names, kw.map lowerByte = kw := by
  decide

/-- C15: well-formedness of `regionRules`: every code is 2 or 3 ASCII letters, every
keyword is non-empty and equal to its own `ToLower`, every emoji string is non-empty, and
the 17 rules have pairwise distinct regions, none of them `RegionOther`; the case tables
are any that leave CJK ideographs and regional indicator symbols unchanged. -/
theorem regionRules_well_formed (ct : CaseTables) (hct : ct.fixesUncased) :
    (∀ rule ∈ regionRules, ∀ code ∈ rule.codes,
      (code.length = 2 ∨ code.length = 3) ∧ ∀ b ∈ code, isASCIILetter b = true) ∧
    (∀ rule ∈ regionRules, ∀ kw ∈ rule.names, kw ≠ [] ∧ ToLower ct kw = kw) ∧
    (∀ rule ∈ regionRules, ∀ e ∈ rule.emojis, e ≠ []) ∧
    regionRules.length = 17 ∧
    (regionRules.map (fun rule => rule.region)).Nodup ∧
    (∀ rule ∈ regionRules, rule.region ≠ RegionOther) := by
  refine ⟨regionRules_codes_shape, ?_, regionRules_emojis_ne_nil, rfl, by decide,
    regionRules_region_ne_other⟩
  intro rule hr kw hkw
  refine ⟨regionRules_names_ne_nil rule hr kw hkw, ?_⟩
  rw [ToLower_of_plainText ct hct kw
    (regionRules_patterns_plain rule hr kw (by simp [hkw]))]
  exact regionRules_names_lower rule hr kw hkw

theorem regionRules_well_formed_witness :
    CaseTables.excerpt.fixesUncased ∧
    ToLower CaseTables.excerpt (utf8 "香港") = utf8 "香港" :=
  ⟨fixesUncased_excerpt,
    ((regionRules_well_formed CaseTables.excerpt fixesUncased_excerpt).2.1 _
      (@List.getElem?_mem _ regionRules 0 _ rfl) (utf8 "香港") (by decide)).2⟩

end Geoip
